import Mathlib

/-!
Verification of the pairing-plan / deduplication core of the Spotify-Scrapper
repository.  The JavaScript sources are shallowly embedded below:

* `src/dedupe.js` (first part): `normalizeText`, `normalizeTitle`,
  `normalizeArtist`, `keyForSong`, `getPairKey`;
* `src/dedupe.js` (second part, the `pairingPlan` module): `normalizePlan`,
  `validatePlan`, `buildPairsFromPlan`;
* `src/unnamed/part_001` (the express server): the default sequential pairing
  and the canonical-store merge fold of `POST /api/create-list`.

Strings are modelled as `List Char` (with `String` wrappers); JavaScript
numbers holding track positions are modelled as `Int`.  JavaScript's
`toLowerCase` is modelled by `Char.toLower` (ASCII case folding; every input
exercised by the claims is ASCII).  `parseInt(String(x).trim())` results are
modelled as `Option Int`, `none` standing for `NaN`.
-/

namespace SpotifyScraper

/-- JavaScript regex `\s` / `String.prototype.trim` whitespace, restricted to
the code points that can actually appear in the embedded data. -/
def isSpaceJs (c : Char) : Bool :=
  c = ' ' || c = '\t' || c = '\n' || c = '\r' || c = '\x0b' || c = '\x0c' ||
  c = ' ' || c = '﻿'

/-- JavaScript regex `\w`: `[A-Za-z0-9_]`. -/
def isWordChar (c : Char) : Bool :=
  c.isAlpha || c.isDigit || c = '_'

/-- The character class `[–—-]` of `normalizeTitle` step 2. -/
def isDashChar (c : Char) : Bool :=
  c = '–' || c = '—' || c = '-'

/-- Characters kept by `normalized.replace(/[^a-z0-9\s]/g, '')`. -/
def keepChar (c : Char) : Bool :=
  ('a' ≤ c && c ≤ 'z') || c.isDigit || isSpaceJs c

/-- `title.toLowerCase()` (step 1 of `normalizeTitle`). -/
def lowerStr (s : List Char) : List Char := s.map Char.toLower

/-- `normalized.replace(/[–—-]/g, ' ')` (step 2 of `normalizeTitle`). -/
def dashToSpace (s : List Char) : List Char :=
  s.map (fun c => if isDashChar c then ' ' else c)

/-- `str.replace(/\([^)]*\)/g, '')` resp. `/\[[^\]]*\]/g` (step 3): every
`opn … cls` group is removed; the greedy `[^)]*` cannot cross a closing
delimiter, so each match runs to the first `cls` after the `opn`.  The fuel
argument (consumed once per scanned character, so `l.length` always suffices)
only makes the recursion structural. -/
def removeDelimsGo (opn cls : Char) : Nat → List Char → List Char
  | _, [] => []
  | 0, l => l
  | fuel + 1, c :: rest =>
    if c = opn ∧ cls ∈ rest then
      removeDelimsGo opn cls fuel ((rest.dropWhile (fun d => !(d = cls))).tail)
    else
      c :: removeDelimsGo opn cls fuel rest

def removeDelims (opn cls : Char) (l : List Char) : List Char :=
  removeDelimsGo opn cls l.length l

/-- Case-insensitive literal match of a (lowercase) token against the head of
the subject, returning the remaining subject (regex `i` flag). -/
def dropTokenCI : List Char → List Char → Option (List Char)
  | [], s => some s
  | _ :: _, [] => none
  | p :: ps, c :: cs => if c.toLower = p then dropTokenCI ps cs else none

def allSpace (s : List Char) : Bool := s.all isSpaceJs

/-- The part `(?:\s+\d+)?\b\s*$` of the suffix pattern, applied to the subject
remaining after the literal token.  Either the rest is pure whitespace, or it
is whitespace, then digits (a year), then whitespace to the end; the `\b`
checks are forced by these shapes because the token ends in a letter. -/
def suffixTailMatch (rest : List Char) : Bool :=
  allSpace rest ||
  (match rest with
   | [] => false
   | c :: _ =>
     isSpaceJs c &&
     (match rest.dropWhile isSpaceJs with
      | [] => false
      | d :: _ =>
        d.isDigit && allSpace ((rest.dropWhile isSpaceJs).dropWhile Char.isDigit)))

/-- Whether the pattern `\b token (?:\s+\d+)?\b\s*$` matches starting exactly
at the head of `s` (the leading `\b` against the previous character is handled
by the caller). -/
def suffixMatchesAt (token s : List Char) : Bool :=
  match dropTokenCI token s with
  | none => false
  | some rest => suffixTailMatch rest

/-- `normalized.replace(pattern, '')` for one suffix pattern: the leftmost
position with a word boundary before it whose match reaches the end of the
string; the matched text (which always extends to the end) is removed. -/
def stripTokenGo (token : List Char) (prevWord : Bool) : List Char → List Char
  | [] => []
  | c :: rest =>
    if !prevWord && suffixMatchesAt token (c :: rest) then []
    else c :: stripTokenGo token (isWordChar c) rest

def stripToken (token : List Char) (s : List Char) : List Char :=
  stripTokenGo token false s

/-- The `suffixes` array of `normalizeTitle` after the in-place stable sort by
descending length (`sortedSuffixes` in the source). -/
def sortedSuffixes : List (List Char) :=
  ["extended version".data, "single version".data, "deluxe edition".data,
   "radio version".data, "album version".data, "instrumental".data,
   "remastered".data, "radio edit".data, "remaster".data, "extended".data,
   "explicit".data, "acapella".data, "version".data, "stereo".data,
   "deluxe".data, "remix".data, "clean".data, "edit".data, "mono".data,
   "live".data]

/-- Step 4 of `normalizeTitle`: each suffix pattern is applied once, longest
token first. -/
def stripSuffixes (s : List Char) : List Char :=
  sortedSuffixes.foldl (fun acc token => stripToken token acc) s

/-- `normalized.replace(/[^a-z0-9\s]/g, '')` (step 5). -/
def sanitize (s : List Char) : List Char := s.filter keepChar

/-- `normalized.replace(/\s+/g, ' ')` (step 6): every maximal whitespace run
becomes a single space. -/
def collapseWs : List Char → List Char
  | [] => []
  | [c] => [if isSpaceJs c then ' ' else c]
  | a :: b :: rest =>
    if isSpaceJs a ∧ isSpaceJs b then collapseWs (b :: rest)
    else (if isSpaceJs a then ' ' else a) :: collapseWs (b :: rest)

/-- `str.trim()` (step 7). -/
def trimWs (s : List Char) : List Char :=
  ((s.dropWhile isSpaceJs).reverse.dropWhile isSpaceJs).reverse

/-- `normalizeTitle` from `src/dedupe.js` (steps 1-7, with the `if (!title)`
falsy guard). -/
def normalizeTitleL (title : List Char) : List Char :=
  if title = [] then []
  else
    trimWs (collapseWs (sanitize (stripSuffixes
      (removeDelims '[' ']' (removeDelims '(' ')' (dashToSpace (lowerStr title)))))))

def normalizeTitleS (title : String) : String := String.mk (normalizeTitleL title.data)

/-- `normalizeArtist` from `src/dedupe.js`: lowercase, collapse whitespace,
trim. -/
def normalizeArtistL (artist : List Char) : List Char :=
  if artist = [] then [] else trimWs (collapseWs (lowerStr artist))

def normalizeArtistS (artist : String) : String := String.mk (normalizeArtistL artist.data)

/-- A track as produced by the playlist fetch: `{ title, artist }`. -/
structure Track where
  title : String
  artist : String
deriving DecidableEq

/-- `keyForSong` from `src/dedupe.js`; a falsy (absent) song yields `''`. -/
def keyForSong : Option Track → String
  | none => ""
  | some song => normalizeTitleS song.title ++ "|" ++ normalizeArtistS song.artist

/-- A pair record as seen by `getPairKey`: both naming conventions
(`original`/`sampled` and `originalTrack`/`sampledTrack`) are supported and
absent tracks are `none`.  A `none` at an outer `Option MPair` models a
missing/null entry of a pairs array. -/
structure MPair where
  original : Option Track := none
  sampled : Option Track := none
  originalTrack : Option Track := none
  sampledTrack : Option Track := none
deriving DecidableEq

/-- `getPairKey` from `src/dedupe.js`: `pair.original || pair.originalTrack`
resolves the shape, and the result is `O:{originalKey}||S:{sampledKey}`. -/
def getPairKey : Option MPair → String
  | none => ""
  | some pair =>
    "O:" ++ keyForSong (pair.original.orElse (fun _ => pair.originalTrack)) ++
    "||S:" ++ keyForSong (pair.sampled.orElse (fun _ => pair.sampledTrack))

/-- The dedupe fold of `POST /api/create-list` (src/unnamed/part_001): walk the
concatenated array, keeping a pair only when its key is non-empty (truthy) and
not yet in the map; `Array.from(map.values())` preserves first-insertion
order, which the recursion reproduces. -/
def dedupeFold (seen : List String) : List (Option MPair) → List (Option MPair)
  | [] => []
  | p :: rest =>
    let key := getPairKey p
    if ¬ key = "" ∧ ¬ key ∈ seen then p :: dedupeFold (key :: seen) rest
    else dedupeFold seen rest

/-- The canonical-store merge: stored pairs first, then the scraped batch,
deduplicated by `getPairKey` keeping first occurrences. -/
def mergePairs (storedPairs newPairs : List (Option MPair)) : List (Option MPair) :=
  dedupeFold [] (storedPairs ++ newPairs)

/-- Modelled from the spec's words (§4.6), as the specification side of the
refinement in claim C6: concatenate `storedPairs ++ newPairs`, then fold over
a key-to-pair mapping keeping only the first occurrence of each pair key;
pairs whose key is empty are dropped entirely. -/
def specMergeFold (storedPairs newPairs : List (Option MPair)) : List (Option MPair) :=
  (storedPairs ++ newPairs).foldl
    (fun acc p =>
      if getPairKey p = "" then acc
      else if acc.any (fun q => getPairKey q == getPairKey p) then acc
      else acc ++ [p])
    []

/-- A trio override rule (positions are 1-based). -/
structure Trio where
  original : Int
  sampleA : Int
  sampleB : Int
deriving DecidableEq

/-- A range rule; `endPos` renders the source's `end` field (a Lean keyword).
The mapping is kept as the raw string, exactly as the code compares it. -/
structure RangeRule where
  start : Int
  endPos : Int
  mapping : String
deriving DecidableEq

/-- A pairing plan after normalization. -/
structure Plan where
  trios : List Trio
  ranges : List RangeRule
deriving DecidableEq

/-- Raw trio input to `normalizePlan`; each field models
`parseInt(String(x).trim())` with `none` for `NaN`. -/
structure RawTrio where
  original : Option Int
  sampleA : Option Int
  sampleB : Option Int
deriving DecidableEq

/-- Raw range input to `normalizePlan`; `mapping` models
`String(range.mapping).trim()`. -/
structure RawRange where
  start : Option Int
  endPos : Option Int
  mapping : String
deriving DecidableEq

structure RawPlan where
  trios : List RawTrio
  ranges : List RawRange
deriving DecidableEq

/-- `Math.max(1, Math.min(trackCount, x))`. -/
def clampPos (trackCount x : Int) : Int := max 1 (min trackCount x)

/-- `normalizePlan` from the pairingPlan module: drop trios/ranges with a
non-numeric field, clamp positions, swap reversed range bounds (before
clamping, as in the source), drop unrecognized mappings, and sort ranges
ascending by `start` (V8's stable sort, rendered as Mathlib's stable
`insertionSort`). -/
def normalizePlan (plan : RawPlan) (trackCount : Int) : Plan where
  trios := plan.trios.filterMap (fun t =>
    match t.original, t.sampleA, t.sampleB with
    | some o, some a, some b =>
      some ⟨clampPos trackCount o, clampPos trackCount a, clampPos trackCount b⟩
    | _, _, _ => none)
  ranges := (plan.ranges.filterMap (fun r =>
    match r.start, r.endPos with
    | some s0, some e0 =>
      if r.mapping = "EVEN_ORIGINAL" ∨ r.mapping = "ODD_ORIGINAL" then
        some ⟨clampPos trackCount (if s0 > e0 then e0 else s0),
              clampPos trackCount (if s0 > e0 then s0 else e0), r.mapping⟩
      else none
    | _, _ => none)).insertionSort (fun a b => a.start ≤ b.start)

/-- The validation errors of `validatePlan`, one constructor per `errors.push`
site, carrying the data interpolated into the source's message strings. -/
inductive VError
  | noRanges
  | trioOutOfRange (trioIdx : Nat) (track : Int)
  | trioNotDistinct (trioIdx : Nat)
  | trackInMultipleTrios (track : Int)
  | rangeStartOut (rangeIdx : Nat) (start : Int)
  | rangeEndOut (rangeIdx : Nat) (endPos : Int)
  | rangeStartAfterEnd (rangeIdx : Nat)
  | rangesOverlap (idxA idxB : Nat)
  | trackUncovered (track : Int)
  | trackMultiplyCovered (track : Int)
deriving DecidableEq

/-- The incremental `trioTracks.has(track)` check: an error for every track
already seen (also within the same trio), adding each track as it goes. -/
def dupCheck (seen : List Int) : List Int → List VError × List Int
  | [] => ([], seen)
  | x :: xs =>
    let head := if x ∈ seen then [VError.trackInMultipleTrios x] else []
    let tail := dupCheck (x :: seen) xs
    (head ++ tail.1, tail.2)

/-- The per-trio checks of `validatePlan`: bounds, distinctness (`Set` size),
and cross-trio duplicates, threading the `trioTracks` set. -/
def trioSection (trackCount : Int) (seen : List Int) (idx : Nat) :
    List Trio → List VError
  | [] => []
  | t :: rest =>
    let tracksL := [t.original, t.sampleA, t.sampleB]
    let boundErrs := tracksL.filterMap (fun x =>
      if x < 1 ∨ x > trackCount then some (VError.trioOutOfRange idx x) else none)
    let distinctErrs :=
      if ¬ tracksL.dedup.length = 3 then [VError.trioNotDistinct idx] else []
    let dup := dupCheck seen tracksL
    boundErrs ++ distinctErrs ++ dup.1 ++ trioSection trackCount dup.2 (idx + 1) rest

/-- All positions mentioned by the trios (the final `trioTracks` set). -/
def trioTrackList (trios : List Trio) : List Int :=
  trios.flatMap (fun t => [t.original, t.sampleA, t.sampleB])

/-- The per-range bounds checks of `validatePlan`. -/
def rangeBoundsSection (trackCount : Int) (idx : Nat) : List RangeRule → List VError
  | [] => []
  | r :: rest =>
    (if r.start < 1 ∨ r.start > trackCount then [VError.rangeStartOut idx r.start] else []) ++
    (if r.endPos < 1 ∨ r.endPos > trackCount then [VError.rangeEndOut idx r.endPos] else []) ++
    (if r.start > r.endPos then [VError.rangeStartAfterEnd idx] else []) ++
    rangeBoundsSection trackCount (idx + 1) rest

/-- `rangeA.end >= rangeB.start && rangeB.end >= rangeA.start`, minus the
touching exemption. -/
def overlapErr (rA rB : RangeRule) : Bool :=
  decide ((rA.endPos ≥ rB.start ∧ rB.endPos ≥ rA.start) ∧
    ¬ (rA.endPos + 1 = rB.start ∨ rB.endPos + 1 = rA.start))

/-- The double loop over range indices `i < j` of `validatePlan`. -/
def overlapSection (ranges : List RangeRule) : List VError :=
  (List.range ranges.length).flatMap (fun i =>
    (List.range ranges.length).filterMap (fun j =>
      if i < j then
        match ranges[i]?, ranges[j]? with
        | some rA, some rB =>
          if overlapErr rA rB then some (VError.rangesOverlap i j) else none
        | _, _ => none
      else none))

/-- The integer interval `[a..b]` (empty when `b < a`), used for the
`for (let trackNum = 1; trackNum <= trackCount; ...)` style loops. -/
def intRange (a b : Int) : List Int :=
  (List.range (b + 1 - a).toNat).map (fun (i : Nat) => a + (i : Int))

/-- The coverage loop of `validatePlan`: every non-trio track must be covered
by exactly one range (`coveringRanges` written out twice in place of the
source's local binding). -/
def coverageSection (trackCount : Int) (trioTracks : List Int)
    (ranges : List RangeRule) : List VError :=
  (intRange 1 trackCount).filterMap (fun trackNum =>
    if trackNum ∈ trioTracks then none
    else if (ranges.filter (fun r =>
        decide (trackNum ≥ r.start ∧ trackNum ≤ r.endPos))).length = 0 then
      some (VError.trackUncovered trackNum)
    else if (ranges.filter (fun r =>
        decide (trackNum ≥ r.start ∧ trackNum ≤ r.endPos))).length > 1 then
      some (VError.trackMultiplyCovered trackNum)
    else none)

structure VResult where
  ok : Bool
  errors : List VError
deriving DecidableEq

/-- The full error list of `validatePlan`, all checks accumulated in source
order. -/
def validateErrors (plan : Plan) (trackCount : Int) : List VError :=
  (if plan.ranges.length = 0 then [VError.noRanges] else []) ++
  trioSection trackCount [] 0 plan.trios ++
  rangeBoundsSection trackCount 0 plan.ranges ++
  overlapSection plan.ranges ++
  coverageSection trackCount (trioTrackList plan.trios) plan.ranges

/-- `validatePlan` from the pairingPlan module: all checks accumulate into one
error list; `ok` iff the list is empty. -/
def validatePlan (plan : Plan) (trackCount : Int) : VResult :=
  ⟨(validateErrors plan trackCount).isEmpty, validateErrors plan trackCount⟩

/-- A built pair: global 1-based positions plus the tracks looked up at
`tracks[pos - 1]` (`none` models `undefined` for out-of-bounds access). -/
structure Pair where
  originalTrack : Option Track
  sampledTrack : Option Track
  originalPos : Int
  sampledPos : Int
deriving DecidableEq

/-- `tracks[pos - 1]`. -/
def trackAt (tracks : List Track) (pos : Int) : Option Track :=
  if 1 ≤ pos then tracks[(pos - 1).toNat]? else none

/-- The two pairs created from one trio. -/
def trioPairsOf (tracks : List Track) (t : Trio) : List Pair :=
  [⟨trackAt tracks t.original, trackAt tracks t.sampleA, t.original, t.sampleA⟩,
   ⟨trackAt tracks t.original, trackAt tracks t.sampleB, t.original, t.sampleB⟩]

/-- The trio pass of `buildPairsFromPlan`: two pairs per trio; the samples are
marked used in the first loop and the originals in the second. -/
def trioPhase (tracks : List Track) (trios : List Trio) : List Pair × List Int :=
  (trios.flatMap (trioPairsOf tracks),
   trios.flatMap (fun t => [t.sampleA, t.sampleB]) ++ trios.map Trio.original)

/-- The build-time fatal error thrown on a role-count mismatch, carrying the
data of the message `Range {i+1} [{start}..{end}]: unmatched tracks
({o} originals, {s} samples)`. -/
structure BuildError where
  rangeIdx : Nat
  start : Int
  endPos : Int
  originalsCount : Nat
  samplesCount : Nat
deriving DecidableEq

/-- Positions of the range not already used. -/
def availableOf (used : List Int) (r : RangeRule) : List Int :=
  (intRange r.start r.endPos).filter (fun p => decide (¬ p ∈ used))

/-- Split the available positions by parity according to the mapping; any
mapping other than `EVEN_ORIGINAL` takes the `else` (`ODD_ORIGINAL`) branch,
as in the source. -/
def splitRoles (mapping : String) (avail : List Int) : List Int × List Int :=
  let evens := avail.filter (fun p => decide (p % 2 = 0))
  let odds := avail.filter (fun p => decide (¬ p % 2 = 0))
  if mapping = "EVEN_ORIGINAL" then (evens, odds) else (odds, evens)

/-- Pair the i-th original with the i-th sample. -/
def zipRolePairs (tracks : List Track) (originals samples : List Int) : List Pair :=
  (originals.zip samples).map (fun os =>
    ⟨trackAt tracks os.1, trackAt tracks os.2, os.1, os.2⟩)

/-- One range of the range pass: throwing when the role counts differ,
otherwise appending the new pairs and marking their positions used. -/
def rangeStep (tracks : List Track) (st : List Pair × List Int) (idx : Nat)
    (r : RangeRule) : Except BuildError (List Pair × List Int) :=
  let avail := availableOf st.2 r
  let roles := splitRoles r.mapping avail
  if roles.1.length = roles.2.length then
    .ok (st.1 ++ zipRolePairs tracks roles.1 roles.2, st.2 ++ roles.1 ++ roles.2)
  else
    .error ⟨idx, r.start, r.endPos, roles.1.length, roles.2.length⟩

/-- The range pass of `buildPairsFromPlan`, processing ranges in plan order. -/
def rangePhase (tracks : List Track) (st : List Pair × List Int) (idx : Nat) :
    List RangeRule → Except BuildError (List Pair × List Int)
  | [] => .ok st
  | r :: rest =>
    match rangeStep tracks st idx r with
    | .error e => .error e
    | .ok st2 => rangePhase tracks st2 (idx + 1) rest

def pairMinPos (p : Pair) : Int := min p.originalPos p.sampledPos

/-- `buildPairsFromPlan` from the pairingPlan module: trios first, then
ranges; unused positions are reported as leftover (a warning, not an error);
the pair list is stably sorted ascending by `min(originalPos, sampledPos)`
(V8's stable sort, rendered as Mathlib's stable `insertionSort`). -/
def buildPairsFromPlan (tracks : List Track) (plan : Plan) :
    Except BuildError (List Pair × List Int) :=
  let st1 := trioPhase tracks plan.trios
  match rangePhase tracks st1 0 plan.ranges with
  | .error e => .error e
  | .ok st2 =>
    let leftover := (intRange 1 (tracks.length : Int)).filter (fun p => decide (¬ p ∈ st2.2))
    .ok (st2.1.insertionSort (fun a b => pairMinPos a ≤ pairMinPos b), leftover)

/-- The default sequential adjacent pairing of `POST /api/create-list`
(src/unnamed/part_001): the loop `for (i = 0; i < tracks.length; i += 2)`
rendered over `k = i / 2`. -/
def defaultPairs (tracks : List Track) : List Pair :=
  (List.range (tracks.length / 2)).map (fun k =>
    ⟨tracks[(2 * k : Nat)]?, tracks[(2 * k + 1 : Nat)]?,
     2 * (k : Int) + 1, 2 * (k : Int) + 2⟩)

/-- The default pairing path: reject an odd track count with the `'odd'`
error, otherwise emit the adjacent pairs. -/
def defaultPairing (tracks : List Track) : Except String (List Pair) :=
  if ¬ tracks.length % 2 = 0 then .error "odd" else .ok (defaultPairs tracks)

/-- All position occurrences of a pair list, with multiplicity. -/
def pairPositions (pairs : List Pair) : List Int :=
  pairs.flatMap (fun pr => [pr.originalPos, pr.sampledPos])

def trioOriginals (trios : List Trio) : List Int := trios.map Trio.original

deriving instance DecidableEq for Except

/-- The key set of the dedupe `Map` after a run of the fold (for reasoning
about `dedupeFold`; the fold adds a key exactly when it keeps the pair). -/
def seenAfter (seen : List String) : List (Option MPair) → List String
  | [] => seen
  | p :: rest =>
    let key := getPairKey p
    if ¬ key = "" ∧ ¬ key ∈ seen then seenAfter (key :: seen) rest
    else seenAfter seen rest

/-- Marker for the overlap error kind (used to locate `rangesOverlap` errors
inside the accumulated error list). -/
def VError.isOverlapErr : VError → Bool
  | .rangesOverlap _ _ => true
  | _ => false

/-- A concrete raw plan for the concrete normalization theorems. -/
def rawPlanDemo : RawPlan :=
  ⟨[⟨some 1, some 1, some 1⟩], [⟨some 9, some 2, "EVEN_ORIGINAL"⟩]⟩

/-- A concrete well-formed pair for the concrete merge theorems. -/
def mpairA : MPair :=
  ⟨none, none, some ⟨"Song A", "Artist A"⟩, some ⟨"Song B", "Artist A"⟩⟩

/-- A pair object whose tracks are all absent. -/
def mpairTrackless : MPair := ⟨none, none, none, none⟩

/-- Concrete numbered tracks used by the concrete theorems. -/
def sampleTracks (n : Nat) : List Track :=
  (List.range n).map (fun i => ⟨"t" ++ toString (i + 1), "a" ++ toString (i + 1)⟩)

/-- Titles differing only by letter case or by dash characters: pointwise, the
characters either case-fold to the same character or are both dashes. -/
def caseDashEquiv : List Char → List Char → Bool
  | [], [] => true
  | a :: xs, b :: ys =>
    (a.toLower == b.toLower || (isDashChar a && isDashChar b)) && caseDashEquiv xs ys
  | _, _ => false

/-- Characters that can appear in a `normalizeTitle` output: lowercase ASCII
letters, digits, and the plain space. -/
def canonChar (c : Char) : Prop :=
  ('a' ≤ c ∧ c ≤ 'z') ∨ c.isDigit = true ∨ c = ' '

/-- Shape of every `normalizeTitle` output: canonical characters, no two
adjacent whitespace characters, no leading or trailing whitespace. -/
def CanonStr (l : List Char) : Prop :=
  (∀ c ∈ l, canonChar c) ∧
  l.Chain' (fun a b => ¬ (isSpaceJs a = true ∧ isSpaceJs b = true)) ∧
  (∀ c ∈ l.head?, isSpaceJs c = false) ∧
  (∀ c ∈ l.getLast?, isSpaceJs c = false)

end SpotifyScraper

namespace SpotifyScraper

/-! ### Character-level facts -/

theorem char_le_toNat {c d : Char} (h : c ≤ d) : c.toNat ≤ d.toNat := by
  rw [Char.le_def, UInt32.le_def, BitVec.le_def] at h
  exact h

theorem uint32_le_toNat {c d : UInt32} (h : c ≤ d) : c.toNat ≤ d.toNat := by
  rw [UInt32.le_def, BitVec.le_def] at h
  exact h

theorem canon_toNat {c : Char} (h : canonChar c) :
    (97 ≤ c.toNat ∧ c.toNat ≤ 122) ∨ (48 ≤ c.toNat ∧ c.toNat ≤ 57) ∨ c.toNat = 32 := by
  rcases h with ⟨h1, h2⟩ | h | h
  · exact Or.inl ⟨char_le_toNat h1, char_le_toNat h2⟩
  · simp only [Char.isDigit, Bool.and_eq_true, decide_eq_true_eq] at h
    exact Or.inr (Or.inl ⟨uint32_le_toNat h.1, uint32_le_toNat h.2⟩)
  · rw [h]; right; right; rfl

theorem isSpaceJs_toNat {c : Char} (h : isSpaceJs c = true) :
    c.toNat = 32 ∨ c.toNat = 9 ∨ c.toNat = 10 ∨ c.toNat = 13 ∨ c.toNat = 11 ∨
    c.toNat = 12 ∨ c.toNat = 160 ∨ c.toNat = 65279 := by
  unfold isSpaceJs at h
  simp only [Bool.or_eq_true, decide_eq_true_eq] at h
  rcases h with ((((((h | h) | h) | h) | h) | h) | h) | h <;> subst h <;> decide

theorem toNat_inj {c d : Char} (h : c.toNat = d.toNat) : c = d :=
  Char.ext (congrArg UInt32.mk (BitVec.toNat_injective h))

theorem canon_space_iff {c : Char} (h : canonChar c) : isSpaceJs c = true ↔ c = ' ' := by
  constructor
  · intro hs
    have h1 := canon_toNat h
    have h2 := isSpaceJs_toNat hs
    apply toNat_inj
    show c.toNat = 32
    omega
  · intro h; rw [h]; decide

theorem toLower_canon {c : Char} (h : canonChar c) : c.toLower = c := by
  unfold Char.toLower
  rw [if_neg]
  intro hc
  have := canon_toNat h
  omega

theorem isDashChar_canon {c : Char} (h : canonChar c) : isDashChar c = false := by
  rcases hb : isDashChar c with _ | _
  · rfl
  · exfalso
    unfold isDashChar at hb
    simp only [Bool.or_eq_true, decide_eq_true_eq] at hb
    rcases hb with (hb | hb) | hb <;> subst hb <;>
      { have := canon_toNat h; revert this; decide }

theorem keepChar_canon {c : Char} (h : canonChar c) : keepChar c = true := by
  unfold keepChar
  rcases h with ⟨h1, h2⟩ | h | h
  · simp [h1, h2]
  · simp [h]
  · rw [h]; decide

theorem canon_ne_open_paren {c : Char} (h : canonChar c) : ¬ c = '(' := by
  intro hc
  subst hc
  have := canon_toNat h
  revert this
  decide

theorem canon_ne_open_bracket {c : Char} (h : canonChar c) : ¬ c = '[' := by
  intro hc
  subst hc
  have := canon_toNat h
  revert this
  decide

/-! ### The pipeline stages are the identity on canonical strings -/

theorem map_id_of {f : Char → Char} {l : List Char} (h : ∀ c ∈ l, f c = c) :
    l.map f = l := by
  induction l with
  | nil => rfl
  | cons a t ih =>
    simp only [List.map_cons]
    rw [h a (by simp), ih (fun c hc => h c (by simp [hc]))]

theorem lowerStr_canon {l : List Char} (h : ∀ c ∈ l, canonChar c) : lowerStr l = l :=
  map_id_of (fun c hc => toLower_canon (h c hc))

theorem dashToSpace_canon {l : List Char} (h : ∀ c ∈ l, canonChar c) :
    dashToSpace l = l :=
  map_id_of (fun c hc => by
    simp [isDashChar_canon (h c hc)])

theorem removeDelimsGo_id {opn cls : Char} : ∀ (fuel : Nat) {l : List Char},
    ¬ opn ∈ l → removeDelimsGo opn cls fuel l = l := by
  intro fuel
  induction fuel with
  | zero => intro l _; cases l <;> rfl
  | succ n ih =>
    intro l h
    cases l with
    | nil => rfl
    | cons a t =>
      rw [removeDelimsGo, if_neg, ih (fun hm => h (by simp [hm]))]
      rintro ⟨rfl, -⟩
      exact h (by simp)

theorem removeDelims_id {opn cls : Char} {l : List Char} (h : ¬ opn ∈ l) :
    removeDelims opn cls l = l :=
  removeDelimsGo_id l.length h

theorem sanitize_canon {l : List Char} (h : ∀ c ∈ l, canonChar c) : sanitize l = l :=
  List.filter_eq_self.mpr (fun c hc => keepChar_canon (h c hc))

theorem collapseWs_cons2_pos {a b : Char} {rest : List Char}
    (h : isSpaceJs a = true ∧ isSpaceJs b = true) :
    collapseWs (a :: b :: rest) = collapseWs (b :: rest) := by
  simp only [collapseWs, if_pos h]

theorem collapseWs_cons2_neg {a b : Char} {rest : List Char}
    (h : ¬ (isSpaceJs a = true ∧ isSpaceJs b = true)) :
    collapseWs (a :: b :: rest) =
      (if isSpaceJs a then ' ' else a) :: collapseWs (b :: rest) := by
  simp only [collapseWs, if_neg h]

theorem collapseWs_eq_self : ∀ l : List Char,
    (∀ c ∈ l, isSpaceJs c = true → c = ' ') →
    l.Chain' (fun a b => ¬ (isSpaceJs a = true ∧ isSpaceJs b = true)) →
    collapseWs l = l := by
  intro l
  induction l using collapseWs.induct with
  | case1 => intro _ _; rfl
  | case2 c =>
    intro hc _
    by_cases hs : isSpaceJs c = true
    · have hc2 := hc c (by simp) hs
      subst hc2
      decide
    · simp [collapseWs, hs]
  | case3 a b rest h ih =>
    intro _ hch
    exact absurd h (List.chain'_cons.mp hch).1
  | case4 a b rest h ih =>
    intro hc hch
    rw [collapseWs_cons2_neg h,
      ih (fun c hm hs => hc c (by simp [hm]) hs) (List.chain'_cons.mp hch).2]
    by_cases hs : isSpaceJs a = true
    · rw [if_pos hs, (hc a (by simp) hs)]
    · rw [if_neg hs]

theorem collapseWs_mem : ∀ {l : List Char} {c : Char}, c ∈ collapseWs l →
    c = ' ' ∨ (c ∈ l ∧ isSpaceJs c = false) := by
  intro l
  induction l using collapseWs.induct with
  | case1 => intro c hc; simp [collapseWs] at hc
  | case2 d =>
    intro c hc
    by_cases hs : isSpaceJs d = true
    · simp [collapseWs, hs] at hc
      exact Or.inl hc
    · simp [collapseWs, hs] at hc
      subst hc
      exact Or.inr ⟨by simp, by simp [hs]⟩
  | case3 a b rest h ih =>
    intro c hc
    rw [collapseWs_cons2_pos h] at hc
    rcases ih hc with h1 | ⟨h1, h2⟩
    · exact Or.inl h1
    · exact Or.inr ⟨by simp [h1, List.mem_cons], h2⟩
  | case4 a b rest h ih =>
    intro c hc
    rw [collapseWs_cons2_neg h] at hc
    rcases List.mem_cons.mp hc with h1 | h1
    · by_cases hs : isSpaceJs a = true
      · rw [if_pos hs] at h1; exact Or.inl h1
      · rw [if_neg hs] at h1; exact Or.inr ⟨by simp [h1], by subst h1; simp [hs]⟩
    · rcases ih h1 with h2 | ⟨h2, h3⟩
      · exact Or.inl h2
      · exact Or.inr ⟨by simp [h2, List.mem_cons], h3⟩

theorem collapseWs_head_of_not_space {b : Char} {rest : List Char}
    (hb : ¬ isSpaceJs b = true) :
    (collapseWs (b :: rest)).head? = some b := by
  cases rest with
  | nil => simp [collapseWs, hb]
  | cons c rest2 =>
    rw [collapseWs_cons2_neg (fun hh => hb hh.1), if_neg hb]
    rfl

theorem collapseWs_chain : ∀ l : List Char,
    (collapseWs l).Chain' (fun a b => ¬ (isSpaceJs a = true ∧ isSpaceJs b = true)) := by
  intro l
  induction l using collapseWs.induct with
  | case1 => simp [collapseWs]
  | case2 c => by_cases hs : isSpaceJs c = true <;> simp [collapseWs, hs]
  | case3 a b rest h ih => rw [collapseWs_cons2_pos h]; exact ih
  | case4 a b rest h ih =>
    rw [collapseWs_cons2_neg h]
    rw [List.chain'_cons']
    refine ⟨?_, ih⟩
    intro y hy
    by_cases hs : isSpaceJs a = true
    · have hb : ¬ isSpaceJs b = true := fun hh => h ⟨hs, hh⟩
      rw [collapseWs_head_of_not_space hb] at hy
      simp at hy
      subst hy
      rintro ⟨-, h2⟩
      exact hb h2
    · rintro ⟨h1, -⟩
      rw [if_neg hs] at h1
      exact hs h1

theorem dropWhile_eq_self_of {p : Char → Bool} {l : List Char}
    (h : ∀ c ∈ l.head?, p c = false) : l.dropWhile p = l := by
  cases l with
  | nil => rfl
  | cons a t =>
    have := h a (by simp)
    simp [List.dropWhile_cons, this]

theorem trimWs_eq_self {l : List Char}
    (h1 : ∀ c ∈ l.head?, isSpaceJs c = false)
    (h2 : ∀ c ∈ l.getLast?, isSpaceJs c = false) : trimWs l = l := by
  unfold trimWs
  rw [dropWhile_eq_self_of h1]
  rw [dropWhile_eq_self_of (by simpa using h2)]
  exact List.reverse_reverse l

theorem trimWs_isInfixOf (l : List Char) : trimWs l <:+: l := by
  unfold trimWs
  have h1 : l.dropWhile isSpaceJs <:+ l := List.dropWhile_suffix _
  have h2 : ((l.dropWhile isSpaceJs).reverse.dropWhile isSpaceJs).reverse <+:
      l.dropWhile isSpaceJs := by
    rw [← List.reverse_suffix]
    simp only [List.reverse_reverse]
    exact List.dropWhile_suffix _
  exact h2.isInfix.trans h1.isInfix

theorem trimWs_getLast_not_space (l : List Char) :
    ∀ c ∈ (trimWs l).getLast?, isSpaceJs c = false := by
  intro c hc
  unfold trimWs at hc
  rw [List.getLast?_reverse] at hc
  have := List.head?_dropWhile_not isSpaceJs (l.dropWhile isSpaceJs).reverse
  rcases hd : ((l.dropWhile isSpaceJs).reverse.dropWhile isSpaceJs).head? with _ | d
  · rw [hd] at hc; simp at hc
  · rw [hd] at hc this
    simp at hc this
    subst hc
    simpa using this

theorem head?_of_prefix {l₁ l₂ : List Char} (h : l₁ <+: l₂) (hne : ¬ l₁ = []) :
    l₂.head? = l₁.head? := by
  rcases h with ⟨t, rfl⟩
  cases l₁ with
  | nil => exact absurd rfl hne
  | cons a t1 => rfl

theorem trimWs_head_not_space (l : List Char) :
    ∀ c ∈ (trimWs l).head?, isSpaceJs c = false := by
  intro c hc
  by_cases hne : trimWs l = []
  · rw [hne] at hc; simp at hc
  · have hpre : trimWs l <+: l.dropWhile isSpaceJs := by
      unfold trimWs
      rw [← List.reverse_suffix]
      simp only [List.reverse_reverse]
      exact List.dropWhile_suffix _
    have hh := head?_of_prefix hpre hne
    have := List.head?_dropWhile_not isSpaceJs l
    rw [hh] at this
    rw [hc] at this
    simpa using this

/-! ### Every `normalizeTitle` output is canonical -/

theorem canonStr_nil : CanonStr [] := by
  refine ⟨by simp, by simp, by simp, by simp⟩

theorem canonStr_post (x : List Char) : CanonStr (trimWs (collapseWs (sanitize x))) := by
  have hsan : ∀ c ∈ sanitize x, keepChar c = true := by
    intro c hc
    exact (List.mem_filter.mp hc).2
  have hchars : ∀ c ∈ collapseWs (sanitize x), canonChar c := by
    intro c hc
    rcases collapseWs_mem hc with h | ⟨h1, h2⟩
    · right; right; exact h
    · have hk := hsan c h1
      unfold keepChar at hk
      simp only [Bool.or_eq_true, Bool.and_eq_true, decide_eq_true_eq] at hk
      rcases hk with (⟨g1, g2⟩ | g) | g
      · exact Or.inl ⟨g1, g2⟩
      · exact Or.inr (Or.inl g)
      · exact absurd g (by simp [h2])
  refine ⟨?_, ?_, trimWs_head_not_space _, trimWs_getLast_not_space _⟩
  · intro c hc
    exact hchars c ((trimWs_isInfixOf _).sublist.subset hc)
  · exact List.Chain'.infix (collapseWs_chain _) (trimWs_isInfixOf _)

theorem canonStr_normalizeTitle (s : List Char) : CanonStr (normalizeTitleL s) := by
  unfold normalizeTitleL
  by_cases hs : s = []
  · rw [if_pos hs]; exact canonStr_nil
  · rw [if_neg hs]; exact canonStr_post _

theorem canon_space_eq {l : List Char} (h : ∀ c ∈ l, canonChar c) :
    ∀ c ∈ l, isSpaceJs c = true → c = ' ' := by
  intro c hc hs
  exact (canon_space_iff (h c hc)).mp hs

/-- On a canonical string, the whole pipeline except suffix stripping is the
identity. -/
theorem canon_pipeline_id {y : List Char} (h : CanonStr y) :
    normalizeTitleL y =
      trimWs (collapseWs (sanitize (stripSuffixes y))) := by
  obtain ⟨hchars, hchain, hhead, hlast⟩ := h
  unfold normalizeTitleL
  by_cases hy : y = []
  · subst hy
    simp [stripSuffixes, sortedSuffixes, stripToken, stripTokenGo, sanitize,
      collapseWs, trimWs]
  · rw [if_neg hy]
    rw [lowerStr_canon hchars, dashToSpace_canon hchars,
      removeDelims_id (fun hm => canon_ne_open_paren (hchars _ hm) rfl),
      removeDelims_id (fun hm => canon_ne_open_bracket (hchars _ hm) rfl)]

theorem canon_post_id {y : List Char} (h : CanonStr y) :
    trimWs (collapseWs (sanitize y)) = y := by
  obtain ⟨hchars, hchain, hhead, hlast⟩ := h
  rw [sanitize_canon hchars,
    collapseWs_eq_self y (canon_space_eq hchars) hchain,
    trimWs_eq_self hhead hlast]

/-! ### Case/dash invariance of `normalizeTitle` -/

theorem dash_toLower {c : Char} (h : isDashChar c = true) : c.toLower = c := by
  unfold isDashChar at h
  simp only [Bool.or_eq_true, decide_eq_true_eq] at h
  rcases h with (h | h) | h <;> subst h <;> decide

theorem caseDashEquiv_lowerDash : ∀ {x y : List Char}, caseDashEquiv x y = true →
    dashToSpace (lowerStr x) = dashToSpace (lowerStr y) := by
  intro x
  induction x with
  | nil =>
    intro y h
    cases y with
    | nil => rfl
    | cons b ys => simp [caseDashEquiv] at h
  | cons a xs ih =>
    intro y h
    cases y with
    | nil => simp [caseDashEquiv] at h
    | cons b ys =>
      simp only [caseDashEquiv, Bool.and_eq_true, Bool.or_eq_true, beq_iff_eq] at h
      obtain ⟨h1, h2⟩ := h
      have ih2 := ih h2
      simp only [lowerStr, dashToSpace, List.map_cons] at ih2 ⊢
      rw [ih2]
      congr 1
      rcases h1 with h1 | ⟨hd1, hd2⟩
      · rw [h1]
      · rw [dash_toLower hd1, dash_toLower hd2, if_pos hd1, if_pos hd2]

theorem caseDashEquiv_nil : ∀ {x y : List Char}, caseDashEquiv x y = true →
    (x = [] ↔ y = []) := by
  intro x y h
  cases x with
  | nil => cases y with
    | nil => simp
    | cons b ys => simp [caseDashEquiv] at h
  | cons a xs => cases y with
    | nil => simp [caseDashEquiv] at h
    | cons b ys => simp

/-- C3 (amended): each of the five example titles normalizes to
`"every breath i take"`, and titles differing only by letter case or by dash
characters normalize identically.  (Titles differing by whitespace runs or by
a trailing known annotation token need not normalize identically; see the
counterexample.) -/
theorem c3_title_normalization :
    (normalizeTitleS "Every Breath I Take" = "every breath i take" ∧
     normalizeTitleS "Every Breath I Take - Remastered" = "every breath i take" ∧
     normalizeTitleS "Every Breath I Take (2018 Remaster)" = "every breath i take" ∧
     normalizeTitleS "Every Breath I Take – Remastered 2003" = "every breath i take" ∧
     normalizeTitleS "Every Breath I Take [Radio Edit]" = "every breath i take") ∧
    (∀ x y : List Char, caseDashEquiv x y = true →
      normalizeTitleL x = normalizeTitleL y) := by
  constructor
  · exact ⟨by decide, by decide, by decide, by decide, by decide⟩
  · intro x y h
    have hd := caseDashEquiv_lowerDash h
    unfold normalizeTitleL
    by_cases hx : x = []
    · rw [if_pos hx, if_pos ((caseDashEquiv_nil h).mp hx)]
    · rw [if_neg hx, if_neg (fun hy => hx ((caseDashEquiv_nil h).mpr hy)), hd]

/-- C3, witness for the universally quantified conjunct: `"A–B"` and `"a-b"`
differ only by case and dash characters and normalize identically. -/
theorem c3_title_normalization_witness :
    caseDashEquiv "A–B".data "a-b".data = true ∧
    normalizeTitleL "A–B".data = normalizeTitleL "a-b".data :=
  ⟨by decide, c3_title_normalization.2 _ _ (by decide)⟩

/-- C3, counterexample to the claim as stated: `"song radio edit"` and
`"song radio  edit"` differ only by a whitespace run (the multi-word token
`radio edit` then fails to match), and `"song remix"` and
`"song remix live"` differ only by the trailing known annotation token
`live` (stripping `live` exposes `remix`, which is no longer tried); in both
cases the two titles normalize differently. -/
theorem c3_title_normalization_counterexample :
    ¬ normalizeTitleS "song radio edit" = normalizeTitleS "song radio  edit" ∧
    ¬ normalizeTitleS "song remix" = normalizeTitleS "song remix live" :=
  ⟨by decide, by decide⟩

/-- C4 (amended): `normalizeTitle` is idempotent on every input whose
normalization is left unchanged by the suffix-stripping pass; a second
application can only differ by stripping a further trailing annotation
token. -/
theorem c4_normalizeTitle_idempotent (s : List Char)
    (h : stripSuffixes (normalizeTitleL s) = normalizeTitleL s) :
    normalizeTitleL (normalizeTitleL s) = normalizeTitleL s := by
  have hc := canonStr_normalizeTitle s
  rw [canon_pipeline_id hc, h, canon_post_id hc]

/-- C4, witness: `"Hello  World"` satisfies the hypothesis and is a fixed
point of a second normalization. -/
theorem c4_normalizeTitle_idempotent_witness :
    stripSuffixes (normalizeTitleL "Hello  World".data) = normalizeTitleL "Hello  World".data ∧
    normalizeTitleL (normalizeTitleL "Hello  World".data) = normalizeTitleL "Hello  World".data :=
  ⟨by decide, c4_normalizeTitle_idempotent _ (by decide)⟩

/-- C4, counterexample to idempotence as stated: `normalizeTitle` maps
`"version edit"` to `"version"` (only `edit` is stripped, longest-first, one
pass per token), and a second application maps `"version"` to `""`. -/
theorem c4_normalizeTitle_not_idempotent :
    ¬ normalizeTitleS (normalizeTitleS "version edit") = normalizeTitleS "version edit" := by
  decide

/-! ### Concrete plan validation and build (claim C2) -/

/-- C2: over 10 tracks, the plan with trio `{original:5, sampleA:6, sampleB:7}`
and ranges `[1,4] EVEN_ORIGINAL`, `[8,10] ODD_ORIGINAL` passes `validatePlan`;
the trio pass emits the pairs `(5,6)` and `(5,7)`; processing range `[1,4]`
adds the pairs `(2,1)` and `(4,3)`; and processing through range `[8,10]`
raises the build-time fatal error (range index 1, one original vs two
samples), so the whole build returns the error and no truncated pair set. -/
theorem c2_trio_ranges_build :
    (validatePlan ⟨[⟨5, 6, 7⟩], [⟨1, 4, "EVEN_ORIGINAL"⟩, ⟨8, 10, "ODD_ORIGINAL"⟩]⟩ 10).ok
      = true ∧
    (trioPhase (sampleTracks 10) [⟨5, 6, 7⟩]).1.map (fun p => (p.originalPos, p.sampledPos))
      = [(5, 6), (5, 7)] ∧
    (rangePhase (sampleTracks 10) (trioPhase (sampleTracks 10) [⟨5, 6, 7⟩]) 0
        [⟨1, 4, "EVEN_ORIGINAL"⟩]).map
        (fun st => st.1.map (fun p => (p.originalPos, p.sampledPos)))
      = .ok [(5, 6), (5, 7), (2, 1), (4, 3)] ∧
    buildPairsFromPlan (sampleTracks 10)
        ⟨[⟨5, 6, 7⟩], [⟨1, 4, "EVEN_ORIGINAL"⟩, ⟨8, 10, "ODD_ORIGINAL"⟩]⟩
      = .error ⟨1, 8, 10, 1, 2⟩ :=
  ⟨by decide, by decide, by decide, by decide⟩

/-! ### Default sequential pairing (claim C9) -/

/-- C9: with no pairing plan, the default sequential adjacent pairing applies:
an odd track count fails with the `'odd'` error; an even count emits exactly
`N / 2` pairs, the k-th (0-based) pairing positions `(2k+1, 2k+2)` built from
`tracks[2k]` and `tracks[2k+1]`, so the odd position is always the original
and the even position (its successor) the sampled one. -/
theorem c9_default_pairing (tracks : List Track) :
    (¬ tracks.length % 2 = 0 → defaultPairing tracks = .error "odd") ∧
    (tracks.length % 2 = 0 →
      defaultPairing tracks = .ok (defaultPairs tracks) ∧
      (defaultPairs tracks).length = tracks.length / 2 ∧
      (∀ k : Nat, k < tracks.length / 2 →
        (defaultPairs tracks)[k]? =
          some ⟨tracks[(2 * k : Nat)]?, tracks[(2 * k + 1 : Nat)]?,
            2 * (k : Int) + 1, 2 * (k : Int) + 2⟩) ∧
      (∀ p ∈ defaultPairs tracks,
        p.originalPos % 2 = 1 ∧ p.sampledPos = p.originalPos + 1)) := by
  constructor
  · intro h
    unfold defaultPairing
    rw [if_pos h]
  · intro h
    refine ⟨by unfold defaultPairing; rw [if_neg (by simp [h])], by simp [defaultPairs], ?_, ?_⟩
    · intro k hk
      unfold defaultPairs
      rw [List.getElem?_map, List.getElem?_range hk]
      rfl
    · intro p hp
      unfold defaultPairs at hp
      rcases List.mem_map.mp hp with ⟨k, hk, rfl⟩
      constructor
      · show (2 * (k : Int) + 1) % 2 = 1
        omega
      · show (2 * (k : Int) + 2) = 2 * (k : Int) + 1 + 1
        omega

/-- C9, witness: at 4 resp. 5 tracks. -/
theorem c9_default_pairing_witness :
    defaultPairing (sampleTracks 5) = .error "odd" ∧
    defaultPairing (sampleTracks 4) = .ok (defaultPairs (sampleTracks 4)) ∧
    (defaultPairs (sampleTracks 4)).map (fun p => (p.originalPos, p.sampledPos))
      = [(1, 2), (3, 4)] :=
  ⟨(c9_default_pairing (sampleTracks 5)).1 (by decide),
   ((c9_default_pairing (sampleTracks 4)).2 (by decide)).1,
   by decide⟩

/-! ### Merge fold lemmas (claims C5 and C6) -/

theorem dedupeFold_eq_self : ∀ {l : List (Option MPair)} {seen : List String},
    (∀ q ∈ l, ¬ getPairKey q = "") → (l.map getPairKey).Nodup →
    (∀ q ∈ l, ¬ getPairKey q ∈ seen) → dedupeFold seen l = l := by
  intro l
  induction l with
  | nil => intro seen _ _ _; rfl
  | cons p rest ih =>
    intro seen h1 h2 h3
    rw [List.map_cons, List.nodup_cons] at h2
    rw [dedupeFold]
    rw [if_pos ⟨h1 p (by simp), h3 p (by simp)⟩]
    congr 1
    apply ih
    · exact fun q hq => h1 q (by simp [hq])
    · exact h2.2
    · intro q hq
      simp only [List.mem_cons, not_or]
      refine ⟨?_, h3 q (by simp [hq])⟩
      intro he
      exact h2.1 (by rw [← he]; exact List.mem_map_of_mem getPairKey hq)

theorem mem_seenAfter : ∀ {l : List (Option MPair)} {seen : List String} {k : String},
    k ∈ seen → k ∈ seenAfter seen l := by
  intro l
  induction l with
  | nil => intro seen k h; exact h
  | cons p rest ih =>
    intro seen k h
    rw [seenAfter]
    by_cases hc : ¬ getPairKey p = "" ∧ ¬ getPairKey p ∈ seen
    · rw [if_pos hc]; exact ih (by simp [h])
    · rw [if_neg hc]; exact ih h

theorem key_mem_seenAfter : ∀ {l : List (Option MPair)} {seen : List String} {q : Option MPair},
    q ∈ l → ¬ getPairKey q = "" → getPairKey q ∈ seenAfter seen l := by
  intro l
  induction l with
  | nil => intro seen q h _; cases h
  | cons p rest ih =>
    intro seen q h hk
    rw [seenAfter]
    rcases List.mem_cons.mp h with rfl | h2
    · by_cases hc : ¬ getPairKey q = "" ∧ ¬ getPairKey q ∈ seen
      · rw [if_pos hc]; exact mem_seenAfter (by simp)
      · rw [if_neg hc]
        rcases Decidable.not_and_iff_or_not.mp hc with hc1 | hc2
        · exact absurd hk (by simpa using fun h => hc1 h)
        · exact mem_seenAfter (by simpa using hc2)
    · by_cases hc : ¬ getPairKey p = "" ∧ ¬ getPairKey p ∈ seen
      · rw [if_pos hc]; exact ih h2 hk
      · rw [if_neg hc]; exact ih h2 hk

theorem dedupeFold_append : ∀ (l₁ l₂ : List (Option MPair)) (seen : List String),
    dedupeFold seen (l₁ ++ l₂) =
      dedupeFold seen l₁ ++ dedupeFold (seenAfter seen l₁) l₂ := by
  intro l₁
  induction l₁ with
  | nil => intro l₂ seen; rfl
  | cons p rest ih =>
    intro l₂ seen
    rw [List.cons_append, dedupeFold, dedupeFold, seenAfter]
    by_cases hc : ¬ getPairKey p = "" ∧ ¬ getPairKey p ∈ seen
    · rw [if_pos hc, if_pos hc, if_pos hc, ih, List.cons_append]
    · rw [if_neg hc, if_neg hc, if_neg hc, ih]

theorem dedupeFold_nil_of_covered : ∀ {l : List (Option MPair)} {seen : List String},
    (∀ q ∈ l, getPairKey q = "" ∨ getPairKey q ∈ seen) → dedupeFold seen l = [] := by
  intro l
  induction l with
  | nil => intro seen _; rfl
  | cons p rest ih =>
    intro seen h
    rw [dedupeFold]
    rw [if_neg]
    · exact ih (fun q hq => h q (by simp [hq]))
    · rcases h p (by simp) with h1 | h1
      · rintro ⟨hc, -⟩; exact hc h1
      · rintro ⟨-, hc⟩; exact hc h1

theorem dedupeFold_sound : ∀ (l : List (Option MPair)) (seen : List String),
    ((dedupeFold seen l).map getPairKey).Nodup ∧
    (∀ q ∈ dedupeFold seen l, ¬ getPairKey q = "" ∧ ¬ getPairKey q ∈ seen) := by
  intro l
  induction l with
  | nil => intro seen; exact ⟨by simp [dedupeFold], by simp [dedupeFold]⟩
  | cons p rest ih =>
    intro seen
    rw [dedupeFold]
    by_cases hc : ¬ getPairKey p = "" ∧ ¬ getPairKey p ∈ seen
    · rw [if_pos hc]
      obtain ⟨ihn, ihm⟩ := ih (getPairKey p :: seen)
      constructor
      · rw [List.map_cons, List.nodup_cons]
        refine ⟨?_, ihn⟩
        intro hmem
        rcases List.mem_map.mp hmem with ⟨q, hq, he⟩
        exact (ihm q hq).2 (by rw [he]; simp)
      · intro q hq
        rcases List.mem_cons.mp hq with rfl | h2
        · exact hc
        · have := ihm q h2
          exact ⟨this.1, fun hm => this.2 (by simp [hm])⟩
    · rw [if_neg hc]
      exact ih seen

/-- C5 (amended): `merge(S, [])` returns `S` unchanged whenever the stored
pairs all have non-empty, pairwise distinct keys (the canonical-store
invariant); for every `S`, `merge(S, S) = merge(S, [])`; and a merge result
never contains two entries with the same key, so `merge(S, S)` has no
duplicates. -/
theorem c5_merge_identity_idempotence :
    (∀ S : List (Option MPair),
      (∀ q ∈ S, ¬ getPairKey q = "") → (S.map getPairKey).Nodup →
      mergePairs S [] = S) ∧
    (∀ S : List (Option MPair), mergePairs S S = mergePairs S []) ∧
    (∀ S N : List (Option MPair), ((mergePairs S N).map getPairKey).Nodup) := by
  refine ⟨?_, ?_, ?_⟩
  · intro S h1 h2
    unfold mergePairs
    rw [List.append_nil]
    exact dedupeFold_eq_self h1 h2 (by simp)
  · intro S
    unfold mergePairs
    rw [List.append_nil, dedupeFold_append, List.append_right_eq_self]
    apply dedupeFold_nil_of_covered
    intro q hq
    by_cases hk : getPairKey q = ""
    · exact Or.inl hk
    · exact Or.inr (key_mem_seenAfter hq hk)
  · intro S N
    exact (dedupeFold_sound (S ++ N) []).1

/-- C5, witness: a singleton store with a keyable pair is returned unchanged,
and merging it with itself gives the same singleton. -/
theorem c5_merge_identity_idempotence_witness :
    (∀ q ∈ [some mpairA], ¬ getPairKey q = "") ∧
    (([some mpairA].map getPairKey).Nodup) ∧
    mergePairs [some mpairA] [] = [some mpairA] :=
  ⟨by decide, by simp, c5_merge_identity_idempotence.1 [some mpairA] (by decide) (by simp)⟩

/-- C5, counterexample to the claim as stated: a stored list holding the same
pair twice is not returned unchanged by `merge(S, [])` — the duplicate is
dropped. -/
theorem c5_merge_counterexample :
    ¬ mergePairs [some mpairA, some mpairA] [] = [some mpairA, some mpairA] ∧
    mergePairs [some mpairA, some mpairA] [] = [some mpairA] :=
  ⟨by decide, by decide⟩

theorem specMergeFold_go : ∀ (l : List (Option MPair)) (acc : List (Option MPair))
    (seen : List String),
    (∀ k : String, k ∈ seen ↔ ∃ q ∈ acc, getPairKey q = k) →
    l.foldl (fun acc p =>
      if getPairKey p = "" then acc
      else if acc.any (fun q => getPairKey q == getPairKey p) then acc
      else acc ++ [p]) acc = acc ++ dedupeFold seen l := by
  intro l
  induction l with
  | nil => intro acc seen _; simp [dedupeFold]
  | cons p rest ih =>
    intro acc seen hinv
    rw [List.foldl_cons, dedupeFold]
    by_cases h1 : getPairKey p = ""
    · rw [if_pos h1, if_neg (by rintro ⟨hc, -⟩; exact hc h1)]
      exact ih acc seen hinv
    · rw [if_neg h1]
      by_cases h2 : acc.any (fun q => getPairKey q == getPairKey p) = true
      · have hseen : getPairKey p ∈ seen := by
          rcases List.any_eq_true.mp h2 with ⟨q, hq, he⟩
          exact (hinv (getPairKey p)).mpr ⟨q, hq, by simpa using he⟩
        rw [if_pos h2, if_neg (by rintro ⟨-, hc⟩; exact hc hseen)]
        exact ih acc seen hinv
      · have hseen : ¬ getPairKey p ∈ seen := by
          intro hs
          rcases (hinv (getPairKey p)).mp hs with ⟨q, hq, he⟩
          exact h2 (List.any_eq_true.mpr ⟨q, hq, by simpa using he⟩)
        rw [if_neg h2, if_pos ⟨h1, hseen⟩]
        rw [ih (acc ++ [p]) (getPairKey p :: seen) ?_]
        · rw [List.append_assoc]
          rfl
        · intro k
          constructor
          · intro hk
            rcases List.mem_cons.mp hk with rfl | hk2
            · exact ⟨p, by simp, rfl⟩
            · rcases (hinv k).mp hk2 with ⟨q, hq, he⟩
              exact ⟨q, by simp [hq], he⟩
          · rintro ⟨q, hq, he⟩
            rcases List.mem_append.mp hq with hq1 | hq2
            · exact List.mem_cons.mpr (Or.inr ((hinv k).mpr ⟨q, hq1, he⟩))
            · have hqp : q = p := by simpa using hq2
              subst hqp
              exact List.mem_cons.mpr (Or.inl he.symm)

/-- C6 (amended): the merge result is exactly the spec's fold over
`storedPairs ++ newPairs` keeping the first occurrence of each key (so a
stored pair always wins a tie against a newly scraped pair with the same
key); an entry's key is empty exactly when the entry itself is absent (null),
and only empty-key entries are unconditionally dropped; a pair object whose
tracks are absent gets the non-empty key `"O:||S:"` and is kept (it collides
with every other trackless pair instead of being dropped). -/
theorem c6_merge_fold :
    (∀ S N : List (Option MPair), mergePairs S N = specMergeFold S N) ∧
    (∀ e : Option MPair, getPairKey e = "" ↔ e = none) ∧
    (∀ S N : List (Option MPair), ∀ q ∈ mergePairs S N, ¬ getPairKey q = "") ∧
    (getPairKey (some mpairTrackless) = "O:||S:" ∧
      mergePairs [] [some mpairTrackless] = [some mpairTrackless]) := by
  refine ⟨?_, ?_, ?_, by decide, by decide⟩
  · intro S N
    unfold mergePairs specMergeFold
    rw [specMergeFold_go (S ++ N) [] [] (by simp)]
    rfl
  · intro e
    constructor
    · intro h
      cases e with
      | none => rfl
      | some p =>
        exfalso
        have hd := congrArg String.data h
        simp only [getPairKey, String.data_append] at hd
        cases hd
    · rintro rfl; rfl
  · intro S N q hq
    exact ((dedupeFold_sound (S ++ N) []).2 q hq).1

/-- C6, witness: a concrete merge where the new batch repeats a stored pair;
the stored copy wins and the result keys are non-empty. -/
theorem c6_merge_fold_witness :
    mergePairs [some mpairA] [some mpairA, some mpairTrackless] =
      specMergeFold [some mpairA] [some mpairA, some mpairTrackless] ∧
    ¬ getPairKey (some mpairA) = "" :=
  ⟨c6_merge_fold.1 [some mpairA] [some mpairA, some mpairTrackless],
   c6_merge_fold.2.2.1 [some mpairA] [some mpairA, some mpairTrackless]
     (some mpairA) (by decide)⟩

/-- C6, counterexample to the claim as stated: a pair whose tracks are all
absent is claimed to be dropped as unkeyable, but its key is the non-empty
string `"O:||S:"` and the pair survives the merge. -/
theorem c6_merge_counterexample :
    ¬ getPairKey (some mpairTrackless) = "" ∧
    mergePairs [] [some mpairTrackless] = [some mpairTrackless] :=
  ⟨by decide, by decide⟩

/-! ### Overlap errors in `validatePlan` (claim C7) -/

theorem mem_overlapSection {ranges : List RangeRule} {i j : Nat} :
    VError.rangesOverlap i j ∈ overlapSection ranges ↔
      (i < j ∧ ∃ rA rB, ranges[i]? = some rA ∧ ranges[j]? = some rB ∧
        overlapErr rA rB = true) := by
  unfold overlapSection
  simp only [List.mem_flatMap, List.mem_filterMap, List.mem_range]
  constructor
  · rintro ⟨i2, hi2, j2, hj2, hcond⟩
    split at hcond
    case isTrue hlt =>
      split at hcond
      case h_1 rA rB hA hB =>
        split at hcond
        case isTrue hov =>
          rw [Option.some_inj] at hcond
          injection hcond with e1 e2
          subst e1
          subst e2
          exact ⟨hlt, rA, rB, hA, hB, hov⟩
        case isFalse => exact absurd hcond (by simp)
      case h_2 => exact absurd hcond (by simp)
    case isFalse => exact absurd hcond (by simp)
  · rintro ⟨hlt, rA, rB, hA, hB, hov⟩
    have hj : j < ranges.length := by
      rcases List.getElem?_eq_some_iff.mp hB with ⟨h, -⟩
      exact h
    refine ⟨i, by omega, j, hj, ?_⟩
    rw [if_pos hlt, hA, hB]
    show (if overlapErr rA rB = true then some (VError.rangesOverlap i j) else none)
      = some (VError.rangesOverlap i j)
    rw [if_pos hov]

theorem dupCheck_kinds : ∀ {xs seen : List Int} {e : VError},
    e ∈ (dupCheck seen xs).1 → e.isOverlapErr = false := by
  intro xs
  induction xs with
  | nil =>
    intro seen e h
    simp [dupCheck] at h
  | cons x rest ih =>
    intro seen e h
    rw [dupCheck] at h
    rcases List.mem_append.mp h with h1 | h1
    · split at h1
      · rcases List.mem_singleton.mp h1 with rfl
        rfl
      · cases h1
    · exact ih h1

theorem trioSection_kinds : ∀ {trios : List Trio} {n : Int} {seen : List Int}
    {idx : Nat} {e : VError},
    e ∈ trioSection n seen idx trios → e.isOverlapErr = false := by
  intro trios
  induction trios with
  | nil => intro n seen idx e h; cases h
  | cons t rest ih =>
    intro n seen idx e h
    rw [trioSection] at h
    rcases List.mem_append.mp h with h1 | h1
    · rcases List.mem_append.mp h1 with h2 | h2
      · rcases List.mem_append.mp h2 with h3 | h3
        · rcases List.mem_filterMap.mp h3 with ⟨x, hx, he⟩
          split at he
          · rcases Option.some_inj.mp he with rfl
            rfl
          · cases he
        · split at h3
          · rcases List.mem_singleton.mp h3 with rfl
            rfl
          · cases h3
      · exact dupCheck_kinds h2
    · exact ih h1

theorem rangeBoundsSection_kinds : ∀ {ranges : List RangeRule} {n : Int}
    {idx : Nat} {e : VError},
    e ∈ rangeBoundsSection n idx ranges → e.isOverlapErr = false := by
  intro ranges
  induction ranges with
  | nil => intro n idx e h; cases h
  | cons r rest ih =>
    intro n idx e h
    rw [rangeBoundsSection] at h
    rcases List.mem_append.mp h with h1 | h1
    · rcases List.mem_append.mp h1 with h2 | h2
      · rcases List.mem_append.mp h2 with h3 | h3
        · split at h3
          · rcases List.mem_singleton.mp h3 with rfl; rfl
          · cases h3
        · split at h3
          · rcases List.mem_singleton.mp h3 with rfl; rfl
          · cases h3
      · split at h2
        · rcases List.mem_singleton.mp h2 with rfl; rfl
        · cases h2
    · exact ih h1

theorem coverageSection_kinds {n : Int} {trioTracks : List Int}
    {ranges : List RangeRule} {e : VError}
    (h : e ∈ coverageSection n trioTracks ranges) : e.isOverlapErr = false := by
  unfold coverageSection at h
  rcases List.mem_filterMap.mp h with ⟨x, hx, he⟩
  split at he
  · cases he
  · split at he
    · rcases Option.some_inj.mp he with rfl; rfl
    · split at he
      · rcases Option.some_inj.mp he with rfl; rfl
      · cases he

theorem validatePlan_errors (plan : Plan) (n : Int) :
    (validatePlan plan n).errors = validateErrors plan n := rfl

theorem rangesOverlap_mem_validate {plan : Plan} {n : Int} {i j : Nat} :
    VError.rangesOverlap i j ∈ (validatePlan plan n).errors ↔
      VError.rangesOverlap i j ∈ overlapSection plan.ranges := by
  rw [validatePlan_errors]
  unfold validateErrors
  constructor
  · intro h
    rcases List.mem_append.mp h with h | h
    · rcases List.mem_append.mp h with h | h
      · rcases List.mem_append.mp h with h | h
        · rcases List.mem_append.mp h with h | h
          · exfalso
            split at h
            · rcases List.mem_singleton.mp h with h2
              cases h2
            · cases h
          · exact absurd (trioSection_kinds h) (by simp [VError.isOverlapErr])
        · exact absurd (rangeBoundsSection_kinds h) (by simp [VError.isOverlapErr])
      · exact h
    · exact absurd (coverageSection_kinds h) (by simp [VError.isOverlapErr])
  · intro h
    exact List.mem_append.mpr (Or.inl (List.mem_append.mpr (Or.inr h)))

/-- C7: `validatePlan` reports an overlap error for ranges at positions
`i < j` exactly when `rA.end ≥ rB.start` and `rB.end ≥ rA.start` and the two
ranges do not merely touch (`rA.end + 1 = rB.start` or `rB.end + 1 =
rA.start`); in particular the plan with ranges `[1,5]` and `[5,10]` over 10
tracks fails validation with an overlap error, while `[1,5]` and `[6,10]`
validates successfully. -/
theorem c7_overlap_validation :
    (∀ (plan : Plan) (n : Int) (i j : Nat) (rA rB : RangeRule),
      plan.ranges[i]? = some rA → plan.ranges[j]? = some rB → i < j →
      (VError.rangesOverlap i j ∈ (validatePlan plan n).errors ↔
        (rA.endPos ≥ rB.start ∧ rB.endPos ≥ rA.start) ∧
        ¬ (rA.endPos + 1 = rB.start ∨ rB.endPos + 1 = rA.start))) ∧
    ((validatePlan ⟨[], [⟨1, 5, "EVEN_ORIGINAL"⟩, ⟨5, 10, "ODD_ORIGINAL"⟩]⟩ 10).ok
        = false ∧
      VError.rangesOverlap 0 1 ∈
        (validatePlan ⟨[], [⟨1, 5, "EVEN_ORIGINAL"⟩, ⟨5, 10, "ODD_ORIGINAL"⟩]⟩ 10).errors) ∧
    (validatePlan ⟨[], [⟨1, 5, "EVEN_ORIGINAL"⟩, ⟨6, 10, "ODD_ORIGINAL"⟩]⟩ 10).ok
      = true := by
  refine ⟨?_, ⟨by decide, by decide⟩, by decide⟩
  intro plan n i j rA rB hA hB hlt
  rw [rangesOverlap_mem_validate, mem_overlapSection]
  constructor
  · rintro ⟨-, rA2, rB2, hA2, hB2, hov⟩
    rw [hA, Option.some_inj] at hA2
    rw [hB, Option.some_inj] at hB2
    subst hA2
    subst hB2
    exact of_decide_eq_true hov
  · intro hcond
    exact ⟨hlt, rA, rB, hA, hB, decide_eq_true hcond⟩

/-- C7, witness: the `[1,5]`/`[5,10]` pair of ranges instantiates the general
equivalence, yielding the overlap error. -/
theorem c7_overlap_validation_witness :
    VError.rangesOverlap 0 1 ∈
      (validatePlan ⟨[], [⟨1, 5, "EVEN_ORIGINAL"⟩, ⟨5, 10, "ODD_ORIGINAL"⟩]⟩ 10).errors :=
  (c7_overlap_validation.1 ⟨[], [⟨1, 5, "EVEN_ORIGINAL"⟩, ⟨5, 10, "ODD_ORIGINAL"⟩]⟩
    10 0 1 ⟨1, 5, "EVEN_ORIGINAL"⟩ ⟨5, 10, "ODD_ORIGINAL"⟩
    (by decide) (by decide) (by decide)).mpr (by decide)

/-! ### Plan normalization (claim C8) -/

theorem clampPos_bounds {n x : Int} (hn : 1 ≤ n) :
    1 ≤ clampPos n x ∧ clampPos n x ≤ n := by
  unfold clampPos
  omega

theorem clampPos_mono {n x y : Int} (h : x ≤ y) : clampPos n x ≤ clampPos n y := by
  unfold clampPos
  omega

theorem trios_filterMap_length : ∀ (ts : List RawTrio) (n : Int),
    (ts.filterMap (fun t =>
      match t.original, t.sampleA, t.sampleB with
      | some o, some a, some b =>
        some (⟨clampPos n o, clampPos n a, clampPos n b⟩ : Trio)
      | _, _, _ => none)).length =
    (ts.filter (fun t =>
      t.original.isSome && t.sampleA.isSome && t.sampleB.isSome)).length := by
  intro ts n
  induction ts with
  | nil => rfl
  | cons t rest ih =>
    rcases t with ⟨o, a, b⟩
    cases o <;> cases a <;> cases b <;>
      simp [List.filterMap_cons, List.filter_cons, ih]

/-- C8 (amended): for every raw plan, `normalizePlan` (a total function)
drops every trio or range with a non-numeric field, clamps every accepted
position into `[1, trackCount]` provided `trackCount ≥ 1` (for smaller track
counts the clamp result is `1`, outside the empty interval), swaps a range
given with `start > end`, drops ranges with unrecognized mappings, and sorts
the resulting ranges ascending by `start`. -/
theorem c8_normalizePlan (plan : RawPlan) (n : Int) (hn : 1 ≤ n) :
    (∀ t ∈ (normalizePlan plan n).trios,
      (1 ≤ t.original ∧ t.original ≤ n) ∧ (1 ≤ t.sampleA ∧ t.sampleA ≤ n) ∧
      (1 ≤ t.sampleB ∧ t.sampleB ≤ n)) ∧
    (∀ r ∈ (normalizePlan plan n).ranges,
      (1 ≤ r.start ∧ r.start ≤ n) ∧ (1 ≤ r.endPos ∧ r.endPos ≤ n) ∧
      r.start ≤ r.endPos ∧
      (r.mapping = "EVEN_ORIGINAL" ∨ r.mapping = "ODD_ORIGINAL")) ∧
    ((normalizePlan plan n).trios.length =
      (plan.trios.filter (fun t =>
        t.original.isSome && t.sampleA.isSome && t.sampleB.isSome)).length) ∧
    (∀ rr ∈ plan.ranges, ∀ s e : Int, rr.start = some s → rr.endPos = some e →
      s > e → (rr.mapping = "EVEN_ORIGINAL" ∨ rr.mapping = "ODD_ORIGINAL") →
      (⟨clampPos n e, clampPos n s, rr.mapping⟩ : RangeRule) ∈
        (normalizePlan plan n).ranges) ∧
    (normalizePlan plan n).ranges.Pairwise (fun a b => a.start ≤ b.start) := by
  refine ⟨?_, ?_, trios_filterMap_length plan.trios n, ?_, ?_⟩
  · intro t ht
    rcases List.mem_filterMap.mp ht with ⟨rt, hrt, he⟩
    rcases rt with ⟨o, a, b⟩
    cases o with
    | none => cases he
    | some o =>
      cases a with
      | none => cases he
      | some a =>
        cases b with
        | none => cases he
        | some b =>
          rcases Option.some_inj.mp he with rfl
          exact ⟨clampPos_bounds hn, clampPos_bounds hn, clampPos_bounds hn⟩
  · intro r hr
    have hr2 := (List.mem_insertionSort _).mp hr
    rcases List.mem_filterMap.mp hr2 with ⟨rr, hrr, he⟩
    rcases rr with ⟨s0, e0, m⟩
    cases s0 with
    | none => cases he
    | some s0 =>
      cases e0 with
      | none => cases he
      | some e0 =>
        have he2 : (if m = "EVEN_ORIGINAL" ∨ m = "ODD_ORIGINAL" then
            some (⟨clampPos n (if s0 > e0 then e0 else s0),
              clampPos n (if s0 > e0 then s0 else e0), m⟩ : RangeRule)
          else none) = some r := he
        split at he2
        case isTrue hm =>
          rcases Option.some_inj.mp he2 with rfl
          refine ⟨clampPos_bounds hn, clampPos_bounds hn, ?_, hm⟩
          apply clampPos_mono
          by_cases hs : s0 > e0
          · rw [if_pos hs, if_pos hs]; omega
          · rw [if_neg hs, if_neg hs]; omega
        case isFalse => cases he2
  · intro rr hrr s e hs he hgt hm
    apply (List.mem_insertionSort _).mpr
    apply List.mem_filterMap.mpr
    refine ⟨rr, hrr, ?_⟩
    rcases rr with ⟨s0, e0, m⟩
    simp only at hs he hm ⊢
    subst hs
    subst he
    show (if m = "EVEN_ORIGINAL" ∨ m = "ODD_ORIGINAL" then
        some (⟨clampPos n (if s > e then e else s),
          clampPos n (if s > e then s else e), m⟩ : RangeRule)
      else none) = some (⟨clampPos n e, clampPos n s, m⟩ : RangeRule)
    rw [if_pos hm, if_pos hgt, if_pos hgt]
  · haveI : IsTotal RangeRule (fun a b => a.start ≤ b.start) :=
      ⟨fun a b => le_total a.start b.start⟩
    haveI : IsTrans RangeRule (fun a b => a.start ≤ b.start) :=
      ⟨fun a b c h1 h2 => le_trans h1 h2⟩
    exact List.sorted_insertionSort _ _

/-- C8, witness: the raw range `{start: 9, end: 2, mapping: EVEN_ORIGINAL}`
over 10 tracks comes out swapped as `[2..9]`, and the raw trio `{1,1,1}`
normalizes to in-bounds positions. -/
theorem c8_normalizePlan_witness :
    (⟨clampPos 10 2, clampPos 10 9, "EVEN_ORIGINAL"⟩ : RangeRule) ∈
      (normalizePlan rawPlanDemo 10).ranges ∧
    (normalizePlan rawPlanDemo 10).ranges.Pairwise (fun a b => a.start ≤ b.start) :=
  ⟨(c8_normalizePlan rawPlanDemo 10 (by decide)).2.2.2.1
      ⟨some 9, some 2, "EVEN_ORIGINAL"⟩ (by decide) 9 2 rfl rfl (by decide)
      (Or.inl rfl),
   (c8_normalizePlan rawPlanDemo 10 (by decide)).2.2.2.2⟩

/-- C8, counterexample to the claim as stated: with `trackCount = 0` the
accepted trio `{1,1,1}` normalizes to position `1`, which does not lie in the
(empty) interval `[1, 0]`, so "clamped into [1, trackCount]" fails for
`trackCount < 1`. -/
theorem c8_normalizePlan_counterexample :
    (normalizePlan ⟨[⟨some 1, some 1, some 1⟩], []⟩ 0).trios.map Trio.original = [1] ∧
    ¬ ((1 : Int) ≤ 0) :=
  ⟨by decide, by decide⟩

/-! ### Facts extracted from a passing validation (claims C1 and C10) -/

theorem validatePlan_ok_iff {plan : Plan} {n : Int} :
    (validatePlan plan n).ok = true ↔ validateErrors plan n = [] := by
  show (validateErrors plan n).isEmpty = true ↔ _
  exact List.isEmpty_iff

theorem validateErrors_nil_sections {plan : Plan} {n : Int}
    (h : validateErrors plan n = []) :
    trioSection n [] 0 plan.trios = [] ∧
    rangeBoundsSection n 0 plan.ranges = [] := by
  unfold validateErrors at h
  rcases List.append_eq_nil.mp h with ⟨h1, -⟩
  rcases List.append_eq_nil.mp h1 with ⟨h2, -⟩
  rcases List.append_eq_nil.mp h2 with ⟨h3, h4⟩
  rcases List.append_eq_nil.mp h3 with ⟨-, h5⟩
  exact ⟨h5, h4⟩

theorem dupCheck_snd_mem : ∀ {xs seen : List Int} {a : Int},
    a ∈ (dupCheck seen xs).2 ↔ a ∈ xs ∨ a ∈ seen := by
  intro xs
  induction xs with
  | nil => intro seen a; simp [dupCheck]
  | cons x rest ih =>
    intro seen a
    rw [dupCheck]
    simp only
    rw [ih]
    simp [List.mem_cons]
    tauto

theorem dupCheck_nil : ∀ {xs seen : List Int}, (dupCheck seen xs).1 = [] →
    xs.Nodup ∧ ∀ x ∈ xs, ¬ x ∈ seen := by
  intro xs
  induction xs with
  | nil => intro seen _; exact ⟨List.nodup_nil, by simp⟩
  | cons x rest ih =>
    intro seen h
    rw [dupCheck] at h
    simp only at h
    rcases List.append_eq_nil.mp h with ⟨h1, h2⟩
    have hx : ¬ x ∈ seen := by
      intro hm
      rw [if_pos hm] at h1
      cases h1
    obtain ⟨hn, hd⟩ := ih h2
    refine ⟨List.nodup_cons.mpr ⟨?_, hn⟩, ?_⟩
    · intro hm
      exact hd x hm (by simp)
    · intro y hy
      rcases List.mem_cons.mp hy with rfl | hy2
      · exact hx
      · intro hm
        exact hd y hy2 (by simp [hm])

theorem trioSection_nil_nodup : ∀ {trios : List Trio} {n : Int} {seen : List Int}
    {idx : Nat}, trioSection n seen idx trios = [] →
    (trioTrackList trios).Nodup ∧ ∀ x ∈ trioTrackList trios, ¬ x ∈ seen := by
  intro trios
  induction trios with
  | nil => intro n seen idx _; exact ⟨List.nodup_nil, by simp [trioTrackList]⟩
  | cons t rest ih =>
    intro n seen idx h
    rw [trioSection] at h
    rcases List.append_eq_nil.mp h with ⟨h1, h2⟩
    rcases List.append_eq_nil.mp h1 with ⟨h3, h4⟩
    rcases List.append_eq_nil.mp h3 with ⟨-, -⟩
    obtain ⟨hhn, hhd⟩ := dupCheck_nil h4
    obtain ⟨hrn, hrd⟩ := ih h2
    have hflat : trioTrackList (t :: rest) =
        [t.original, t.sampleA, t.sampleB] ++ trioTrackList rest := rfl
    rw [hflat]
    constructor
    · rw [List.nodup_append]
      refine ⟨hhn, hrn, ?_⟩
      intro a ha hb
      have := hrd a hb
      rw [dupCheck_snd_mem] at this
      exact this (Or.inl ha)
    · intro x hx
      rcases List.mem_append.mp hx with hx1 | hx1
      · exact hhd x hx1
      · intro hm
        have := hrd x hx1
        rw [dupCheck_snd_mem] at this
        exact this (Or.inr hm)

theorem trioSection_nil_bounds : ∀ {trios : List Trio} {n : Int} {seen : List Int}
    {idx : Nat}, trioSection n seen idx trios = [] →
    ∀ t ∈ trios, (1 ≤ t.original ∧ t.original ≤ n) ∧
      (1 ≤ t.sampleA ∧ t.sampleA ≤ n) ∧ (1 ≤ t.sampleB ∧ t.sampleB ≤ n) := by
  intro trios
  induction trios with
  | nil => intro n seen idx _ t ht; cases ht
  | cons t0 rest ih =>
    intro n seen idx h t ht
    rw [trioSection] at h
    rcases List.append_eq_nil.mp h with ⟨h1, h2⟩
    rcases List.append_eq_nil.mp h1 with ⟨h3, -⟩
    rcases List.append_eq_nil.mp h3 with ⟨h5, -⟩
    rcases List.mem_cons.mp ht with rfl | ht2
    · have hall := List.filterMap_eq_nil_iff.mp h5
      have ho := hall t.original (by simp)
      have ha := hall t.sampleA (by simp)
      have hb := hall t.sampleB (by simp)
      split at ho
      · cases ho
      · split at ha
        · cases ha
        · split at hb
          · cases hb
          · refine ⟨by omega, by omega, by omega⟩
    · exact ih h2 t ht2

theorem rangeBoundsSection_nil : ∀ {ranges : List RangeRule} {n : Int} {idx : Nat},
    rangeBoundsSection n idx ranges = [] →
    ∀ r ∈ ranges, (1 ≤ r.start ∧ r.start ≤ n) ∧ (1 ≤ r.endPos ∧ r.endPos ≤ n) := by
  intro ranges
  induction ranges with
  | nil => intro n idx _ r hr; cases hr
  | cons r0 rest ih =>
    intro n idx h r hr
    rw [rangeBoundsSection] at h
    rcases List.append_eq_nil.mp h with ⟨h1, h2⟩
    rcases List.append_eq_nil.mp h1 with ⟨h3, -⟩
    rcases List.append_eq_nil.mp h3 with ⟨h5, h6⟩
    rcases List.mem_cons.mp hr with rfl | hr2
    · constructor
      · split at h5
        · cases h5
        · omega
      · split at h6
        · cases h6
        · omega
    · exact ih h2 r hr2

theorem trio_positions_sublist : ∀ {trios : List Trio} {t : Trio}, t ∈ trios →
    List.Sublist [t.original, t.sampleA, t.sampleB] (trioTrackList trios) := by
  intro trios
  induction trios with
  | nil => intro t ht; cases ht
  | cons t0 rest ih =>
    intro t ht
    have hflat : trioTrackList (t0 :: rest) =
        [t0.original, t0.sampleA, t0.sampleB] ++ trioTrackList rest := rfl
    rw [hflat]
    rcases List.mem_cons.mp ht with rfl | ht2
    · exact List.sublist_append_left _ _
    · exact (ih ht2).trans (List.sublist_append_right _ _)

theorem trioOriginals_count_le (trios : List Trio) (q : Int) :
    (trioOriginals trios).count q ≤ (trioTrackList trios).count q := by
  induction trios with
  | nil => simp [trioOriginals, trioTrackList]
  | cons t rest ih =>
    have h1 : trioOriginals (t :: rest) = t.original :: trioOriginals rest := rfl
    have h2 : trioTrackList (t :: rest) =
        [t.original, t.sampleA, t.sampleB] ++ trioTrackList rest := rfl
    rw [h1, h2, List.count_cons, List.count_append, List.count_cons, List.count_cons,
      List.count_cons]
    simp only [List.count_nil]
    omega

/-! ### Build-phase lemmas (claims C1 and C10) -/

theorem mem_intRange {a b p : Int} : p ∈ intRange a b ↔ a ≤ p ∧ p ≤ b := by
  unfold intRange
  simp only [List.mem_map, List.mem_range]
  constructor
  · rintro ⟨i, hi, rfl⟩
    constructor
    · omega
    · omega
  · rintro ⟨h1, h2⟩
    exact ⟨(p - a).toNat, by omega, by omega⟩

theorem intRange_nodup (a b : Int) : (intRange a b).Nodup := by
  unfold intRange
  exact List.Nodup.map (fun i j hij => by omega) (List.nodup_range _)

theorem splitRoles_spec (m : String) (avail : List Int) :
    ∃ f : Int → Bool,
      (splitRoles m avail).1 = avail.filter f ∧
      (splitRoles m avail).2 = avail.filter (fun x => !(f x)) ∧
      (∀ x y : Int, f x = true → f y = false → ¬ x % 2 = y % 2) := by
  unfold splitRoles
  by_cases hm : m = "EVEN_ORIGINAL"
  · rw [if_pos hm]
    refine ⟨fun p => decide (p % 2 = 0), rfl, ?_, ?_⟩
    · apply List.filter_congr
      intro x _
      rw [decide_not]
    · intro x y hx hy
      simp only [decide_eq_true_eq] at hx
      simp only [decide_eq_false_iff_not] at hy
      omega
  · rw [if_neg hm]
    refine ⟨fun p => decide (¬ p % 2 = 0), rfl, ?_, ?_⟩
    · apply List.filter_congr
      intro x _
      show decide (x % 2 = 0) = !(decide (¬ x % 2 = 0))
      rw [decide_not, Bool.not_not]
    · intro x y hx hy
      simp only [decide_eq_true_eq] at hx
      simp only [decide_eq_false_iff_not, not_not] at hy
      omega

theorem zipRolePairs_count (tracks : List Track) :
    ∀ (o s : List Int), o.length = s.length → ∀ q : Int,
    (pairPositions (zipRolePairs tracks o s)).count q = o.count q + s.count q := by
  intro o
  induction o with
  | nil =>
    intro s h q
    cases s with
    | nil => rfl
    | cons b t => simp at h
  | cons a t ih =>
    intro s h q
    cases s with
    | nil => simp at h
    | cons b t2 =>
      have h2 : t.length = t2.length := by simpa using h
      have e1 : pairPositions (zipRolePairs tracks (a :: t) (b :: t2)) =
          a :: b :: pairPositions (zipRolePairs tracks t t2) := rfl
      rw [e1, List.count_cons, List.count_cons, ih t2 h2 q,
        List.count_cons, List.count_cons]
      omega

theorem zipRolePairs_mem {tracks : List Track} {o s : List Int} {pr : Pair}
    (h : pr ∈ zipRolePairs tracks o s) :
    ∃ x ∈ o, ∃ y ∈ s, pr = ⟨trackAt tracks x, trackAt tracks y, x, y⟩ := by
  unfold zipRolePairs at h
  rcases List.mem_map.mp h with ⟨⟨x, y⟩, hxy, rfl⟩
  have hm := List.of_mem_zip hxy
  exact ⟨x, hm.1, y, hm.2, rfl⟩

theorem pairPositions_append (l1 l2 : List Pair) :
    pairPositions (l1 ++ l2) = pairPositions l1 ++ pairPositions l2 := by
  unfold pairPositions
  rw [List.flatMap_append]

theorem trioPhase_count (tracks : List Track) :
    ∀ (trios : List Trio) (q : Int),
    (pairPositions (trioPhase tracks trios).1).count q =
      (trioPhase tracks trios).2.count q + (trioOriginals trios).count q := by
  intro trios
  induction trios with
  | nil => intro q; rfl
  | cons t rest ih =>
    intro q
    have ihq := ih q
    have e0 : (trioPhase tracks rest).2 =
        rest.flatMap (fun tr => [tr.sampleA, tr.sampleB]) ++ rest.map Trio.original := rfl
    rw [e0] at ihq
    simp only [trioOriginals, List.count_append] at ihq
    have e1 : pairPositions (trioPhase tracks (t :: rest)).1 =
        [t.original, t.sampleA, t.original, t.sampleB] ++
          pairPositions (trioPhase tracks rest).1 := by
      show pairPositions (trioPairsOf tracks t ++ rest.flatMap (trioPairsOf tracks)) = _
      rw [pairPositions_append]
      rfl
    have e2 : (trioPhase tracks (t :: rest)).2 =
        ([t.sampleA, t.sampleB] ++ rest.flatMap (fun tr => [tr.sampleA, tr.sampleB])) ++
          (t.original :: rest.map Trio.original) := rfl
    have e4 : trioOriginals (t :: rest) = t.original :: rest.map Trio.original := rfl
    rw [e1, e2, e4]
    simp only [List.count_append, List.count_cons, List.count_nil]
    omega

theorem trioPhase_used_count (tracks : List Track) :
    ∀ (trios : List Trio) (q : Int),
    (trioPhase tracks trios).2.count q = (trioTrackList trios).count q := by
  intro trios
  induction trios with
  | nil => intro q; rfl
  | cons t rest ih =>
    intro q
    have ihq := ih q
    have e0 : (trioPhase tracks rest).2 =
        rest.flatMap (fun tr => [tr.sampleA, tr.sampleB]) ++ rest.map Trio.original := rfl
    rw [e0] at ihq
    simp only [List.count_append] at ihq
    have e2 : (trioPhase tracks (t :: rest)).2 =
        ([t.sampleA, t.sampleB] ++ rest.flatMap (fun tr => [tr.sampleA, tr.sampleB])) ++
          (t.original :: rest.map Trio.original) := rfl
    have e3 : trioTrackList (t :: rest) =
        [t.original, t.sampleA, t.sampleB] ++ trioTrackList rest := rfl
    rw [e2, e3]
    simp only [List.count_append, List.count_cons, List.count_nil]
    omega

theorem availableOf_nodup (used : List Int) (r : RangeRule) :
    (availableOf used r).Nodup :=
  (intRange_nodup r.start r.endPos).filter _

theorem availableOf_not_used {used : List Int} {r : RangeRule} {x : Int}
    (h : x ∈ availableOf used r) : ¬ x ∈ used := by
  have := (List.mem_filter.mp h).2
  simpa using this

theorem availableOf_bounds {used : List Int} {r : RangeRule} {x : Int}
    (h : x ∈ availableOf used r) : r.start ≤ x ∧ x ≤ r.endPos :=
  mem_intRange.mp (List.mem_filter.mp h).1

theorem rangePhase_invariant (tracks : List Track) :
    ∀ (ranges : List RangeRule) (st : List Pair × List Int) (idx : Nat)
      (st2 : List Pair × List Int),
      rangePhase tracks st idx ranges = .ok st2 →
      (∀ q : Int, (pairPositions st2.1).count q + st.2.count q =
        (pairPositions st.1).count q + st2.2.count q) ∧
      (st.2.Nodup → st2.2.Nodup) ∧
      (∀ q : Int, st.2.count q ≤ st2.2.count q) := by
  intro ranges
  induction ranges with
  | nil =>
    intro st idx st2 h
    rw [rangePhase] at h
    have he := Except.ok.inj h
    subst he
    exact ⟨fun q => by omega, fun h => h, fun q => le_refl _⟩
  | cons r rest ih =>
    intro st idx st2 h
    rw [rangePhase] at h
    rcases hstep : rangeStep tracks st idx r with e | stm
    · rw [hstep] at h; cases h
    · rw [hstep] at h
      simp only [rangeStep] at hstep
      split at hstep
      case isTrue hlen =>
        have he := Except.ok.inj hstep
        subst he
        obtain ⟨ih1, ih2, ih3⟩ := ih _ (idx + 1) st2 h
        dsimp only at ih1 ih2 ih3
        obtain ⟨f, hf1, hf2, -⟩ := splitRoles_spec r.mapping (availableOf st.2 r)
        constructor
        · intro q
          have h1 := ih1 q
          rw [pairPositions_append] at h1
          simp only [List.count_append] at h1
          rw [zipRolePairs_count tracks _ _ hlen q] at h1
          omega
        constructor
        · intro hnd
          apply ih2
          rw [List.append_assoc, List.nodup_append]
          refine ⟨hnd, ?_, ?_⟩
          · rw [List.nodup_append, hf1, hf2]
            refine ⟨(availableOf_nodup st.2 r).filter _,
              (availableOf_nodup st.2 r).filter _, ?_⟩
            intro a ha hb
            have h1 := (List.mem_filter.mp ha).2
            have h2 := (List.mem_filter.mp hb).2
            rw [h1] at h2
            cases h2
          · intro a ha hb
            rcases List.mem_append.mp hb with hb1 | hb1
            · rw [hf1] at hb1
              exact availableOf_not_used (List.mem_of_mem_filter hb1) ha
            · rw [hf2] at hb1
              exact availableOf_not_used (List.mem_of_mem_filter hb1) ha
        · intro q
          have h3 := ih3 q
          rw [List.count_append, List.count_append] at h3
          omega
      case isFalse => cases hstep

theorem trioPhase_mem {tracks : List Track} {trios : List Trio} {pr : Pair}
    (h : pr ∈ (trioPhase tracks trios).1) :
    ∃ t ∈ trios,
      pr = ⟨trackAt tracks t.original, trackAt tracks t.sampleA, t.original, t.sampleA⟩ ∨
      pr = ⟨trackAt tracks t.original, trackAt tracks t.sampleB, t.original, t.sampleB⟩ := by
  have h2 : pr ∈ trios.flatMap (trioPairsOf tracks) := h
  rcases List.mem_flatMap.mp h2 with ⟨t, ht, hpr⟩
  refine ⟨t, ht, ?_⟩
  unfold trioPairsOf at hpr
  rcases List.mem_cons.mp hpr with h3 | h3
  · exact Or.inl h3
  · exact Or.inr (List.mem_singleton.mp h3)

theorem rangePhase_pairs (tracks : List Track) (n : Int) :
    ∀ (ranges : List RangeRule) (st : List Pair × List Int) (idx : Nat)
      (st2 : List Pair × List Int),
      rangePhase tracks st idx ranges = .ok st2 →
      (∀ r ∈ ranges, (1 ≤ r.start ∧ r.start ≤ n) ∧ (1 ≤ r.endPos ∧ r.endPos ≤ n)) →
      ∀ pr ∈ st2.1, pr ∈ st.1 ∨
        ((1 ≤ pr.originalPos ∧ pr.originalPos ≤ n) ∧
         (1 ≤ pr.sampledPos ∧ pr.sampledPos ≤ n) ∧
         ¬ pr.originalPos % 2 = pr.sampledPos % 2) := by
  intro ranges
  induction ranges with
  | nil =>
    intro st idx st2 h hb pr hpr
    rw [rangePhase] at h
    have he := Except.ok.inj h
    subst he
    exact Or.inl hpr
  | cons r rest ih =>
    intro st idx st2 h hb pr hpr
    rw [rangePhase] at h
    rcases hstep : rangeStep tracks st idx r with e | stm
    · rw [hstep] at h; cases h
    · rw [hstep] at h
      simp only [rangeStep] at hstep
      split at hstep
      case isTrue hlen =>
        have he := Except.ok.inj hstep
        subst he
        rcases ih _ (idx + 1) st2 h (fun r2 hr2 => hb r2 (by simp [hr2])) pr hpr
          with hold | hgood
        · rcases List.mem_append.mp hold with h1 | h1
          · exact Or.inl h1
          · right
            obtain ⟨f, hf1, hf2, hf3⟩ := splitRoles_spec r.mapping (availableOf st.2 r)
            rcases zipRolePairs_mem h1 with ⟨x, hx, y, hy, rfl⟩
            rw [hf1] at hx
            rw [hf2] at hy
            have hbx := availableOf_bounds (List.mem_of_mem_filter hx)
            have hby := availableOf_bounds (List.mem_of_mem_filter hy)
            have hbr := hb r (by simp)
            have hfx := (List.mem_filter.mp hx).2
            have hfy := (List.mem_filter.mp hy).2
            dsimp only
            refine ⟨⟨by omega, by omega⟩, ⟨by omega, by omega⟩, ?_⟩
            exact hf3 x y hfx (by simpa using hfy)
        · exact Or.inr hgood
      case isFalse => cases hstep

/-- C1 (amended): for every track list and every plan passing `validatePlan`
for its length, when `buildPairsFromPlan` returns a pair set, every position
`p` in `1..trackCount` occurs among the pairs' `originalPos`/`sampledPos`
values (with multiplicity) zero times when `p` is reported as leftover,
exactly twice when `p` is a trio original (once in each of the trio's two
pairs), and exactly once otherwise. -/
theorem c1_build_position_partition (tracks : List Track) (plan : Plan)
    (hv : (validatePlan plan (tracks.length : Int)).ok = true)
    (pairs : List Pair) (leftover : List Int)
    (hb : buildPairsFromPlan tracks plan = .ok (pairs, leftover))
    (p : Int) (hp1 : 1 ≤ p) (hp2 : p ≤ (tracks.length : Int)) :
    (pairPositions pairs).count p =
      if p ∈ leftover then 0
      else if p ∈ trioOriginals plan.trios then 2 else 1 := by
  have herr := validatePlan_ok_iff.mp hv
  obtain ⟨htrio, -⟩ := validateErrors_nil_sections herr
  obtain ⟨hnodup, -⟩ := trioSection_nil_nodup htrio
  simp only [buildPairsFromPlan] at hb
  rcases hres : rangePhase tracks (trioPhase tracks plan.trios) 0 plan.ranges with e | st2
  · rw [hres] at hb; cases hb
  · rw [hres] at hb
    have hpl : (st2.1.insertionSort (fun a b => pairMinPos a ≤ pairMinPos b),
        (intRange 1 (tracks.length : Int)).filter (fun q => decide (¬ q ∈ st2.2)))
        = (pairs, leftover) := Except.ok.inj hb
    have hpairs : pairs = st2.1.insertionSort (fun a b => pairMinPos a ≤ pairMinPos b) :=
      (congrArg Prod.fst hpl).symm
    have hleft : leftover =
        (intRange 1 (tracks.length : Int)).filter (fun q => decide (¬ q ∈ st2.2)) :=
      (congrArg Prod.snd hpl).symm
    obtain ⟨hinv, hnd, hmono⟩ :=
      rangePhase_invariant tracks plan.ranges (trioPhase tracks plan.trios) 0 st2 hres
    have hsort : (pairPositions pairs).count p = (pairPositions st2.1).count p := by
      rw [hpairs]
      unfold pairPositions
      exact ((List.perm_insertionSort _ st2.1).flatMap_right _).count_eq p
    have hused0 := trioPhase_used_count tracks plan.trios
    have hkey : (pairPositions st2.1).count p =
        st2.2.count p + (trioOriginals plan.trios).count p := by
      have h1 := hinv p
      have h2 := trioPhase_count tracks plan.trios p
      omega
    have hflatle : ∀ q : Int, (trioTrackList plan.trios).count q ≤ 1 :=
      List.nodup_iff_count_le_one.mp hnodup
    rw [hsort, hkey]
    by_cases hpl2 : p ∈ leftover
    · rw [if_pos hpl2]
      rw [hleft] at hpl2
      have hnotin : ¬ p ∈ st2.2 := by
        have h3 := (List.mem_filter.mp hpl2).2
        simpa using h3
      have hc2 : st2.2.count p = 0 := List.count_eq_zero.mpr hnotin
      have hc3 : (trioOriginals plan.trios).count p = 0 := by
        have g1 := trioOriginals_count_le plan.trios p
        have g2 := hused0 p
        have g3 := hmono p
        omega
      omega
    · rw [if_neg hpl2]
      have hin : p ∈ st2.2 := by
        rw [hleft] at hpl2
        by_contra hno
        exact hpl2 (List.mem_filter.mpr ⟨mem_intRange.mpr ⟨hp1, hp2⟩, by simpa using hno⟩)
      have hndused : st2.2.Nodup := by
        apply hnd
        apply List.nodup_iff_count_le_one.mpr
        intro q
        rw [hused0 q]
        exact hflatle q
      have hc1 : st2.2.count p = 1 := by
        have g1 := List.nodup_iff_count_le_one.mp hndused p
        have g2 := List.count_pos_iff.mpr hin
        omega
      by_cases hporig : p ∈ trioOriginals plan.trios
      · rw [if_pos hporig]
        have g1 := trioOriginals_count_le plan.trios p
        have g2 := List.count_pos_iff.mpr hporig
        have g3 := hflatle p
        have g4 := hused0 p
        have g5 := hmono p
        omega
      · rw [if_neg hporig]
        have g : (trioOriginals plan.trios).count p = 0 := List.count_eq_zero.mpr hporig
        omega

/-- C1, witness: two tracks, one `EVEN_ORIGINAL` range; the single built pair
is `(2,1)`, there is no trio and no leftover, and position 1 occurs exactly
once. -/
theorem c1_build_position_partition_witness :
    (pairPositions [(⟨some ⟨"t2", "a2"⟩, some ⟨"t1", "a1"⟩, 2, 1⟩ : Pair)]).count 1 =
      if (1 : Int) ∈ ([] : List Int) then 0
      else if (1 : Int) ∈ trioOriginals [] then 2 else 1 :=
  c1_build_position_partition (sampleTracks 2) ⟨[], [⟨1, 2, "EVEN_ORIGINAL"⟩]⟩
    (by decide) [⟨some ⟨"t2", "a2"⟩, some ⟨"t1", "a1"⟩, 2, 1⟩] [] (by decide)
    1 (by decide) (by decide)

/-- C1, counterexample to the claim as stated: over 7 tracks the plan with
trio `{5,6,7}` and range `[1,4] EVEN_ORIGINAL` passes validation and builds
with no leftover, yet position 5 — the trio original — occurs twice among the
pairs' positions, not exactly once. -/
theorem c1_build_position_counterexample :
    (validatePlan ⟨[⟨5, 6, 7⟩], [⟨1, 4, "EVEN_ORIGINAL"⟩]⟩
        ((sampleTracks 7).length : Int)).ok = true ∧
    (buildPairsFromPlan (sampleTracks 7) ⟨[⟨5, 6, 7⟩], [⟨1, 4, "EVEN_ORIGINAL"⟩]⟩).map
        (fun st => ((pairPositions st.1).count 5, st.2)) = .ok (2, ([] : List Int)) :=
  ⟨by decide, by decide⟩

/-- C10: for every track list and every plan passing `validatePlan` for its
length, each pair returned by `buildPairsFromPlan` has
`originalPos ≠ sampledPos` with both positions in `[1, trackCount]`, and
every pair either comes from the trio pass or joins one even and one odd
position — so no track is ever paired with itself. -/
theorem c10_build_pairs_wellformed (tracks : List Track) (plan : Plan)
    (hv : (validatePlan plan (tracks.length : Int)).ok = true)
    (pairs : List Pair) (leftover : List Int)
    (hb : buildPairsFromPlan tracks plan = .ok (pairs, leftover)) :
    ∀ pr ∈ pairs,
      (¬ pr.originalPos = pr.sampledPos ∧
       (1 ≤ pr.originalPos ∧ pr.originalPos ≤ (tracks.length : Int)) ∧
       (1 ≤ pr.sampledPos ∧ pr.sampledPos ≤ (tracks.length : Int))) ∧
      (pr ∈ (trioPhase tracks plan.trios).1 ∨
        ¬ pr.originalPos % 2 = pr.sampledPos % 2) := by
  intro pr hpr
  have herr := validatePlan_ok_iff.mp hv
  obtain ⟨htrio, hrange⟩ := validateErrors_nil_sections herr
  obtain ⟨hnodup, -⟩ := trioSection_nil_nodup htrio
  have htb := trioSection_nil_bounds htrio
  have hrb := rangeBoundsSection_nil hrange
  simp only [buildPairsFromPlan] at hb
  rcases hres : rangePhase tracks (trioPhase tracks plan.trios) 0 plan.ranges with e | st2
  · rw [hres] at hb; cases hb
  · rw [hres] at hb
    have hpl : (st2.1.insertionSort (fun a b => pairMinPos a ≤ pairMinPos b),
        (intRange 1 (tracks.length : Int)).filter (fun q => decide (¬ q ∈ st2.2)))
        = (pairs, leftover) := Except.ok.inj hb
    have hpairs : pairs = st2.1.insertionSort (fun a b => pairMinPos a ≤ pairMinPos b) :=
      (congrArg Prod.fst hpl).symm
    have hpr2 : pr ∈ st2.1 := by
      rw [hpairs] at hpr
      exact (List.mem_insertionSort _).mp hpr
    rcases rangePhase_pairs tracks (tracks.length : Int) plan.ranges
        (trioPhase tracks plan.trios) 0 st2 hres (fun r hr => hrb r hr) pr hpr2
      with htriop | hgood
    · refine ⟨?_, Or.inl htriop⟩
      rcases trioPhase_mem htriop with ⟨t, ht, hcase⟩
      have hdist : ([t.original, t.sampleA, t.sampleB] : List Int).Nodup :=
        hnodup.sublist (trio_positions_sublist ht)
      simp only [List.nodup_cons, List.mem_cons, List.mem_singleton, not_or] at hdist
      have hbou := htb t ht
      rcases hcase with rfl | rfl
      · dsimp only
        exact ⟨hdist.1.1, ⟨hbou.1.1, hbou.1.2⟩, ⟨hbou.2.1.1, hbou.2.1.2⟩⟩
      · dsimp only
        exact ⟨hdist.1.2.1, ⟨hbou.1.1, hbou.1.2⟩, ⟨hbou.2.2.1, hbou.2.2.2⟩⟩
    · refine ⟨⟨?_, hgood.1, hgood.2.1⟩, Or.inr hgood.2.2⟩
      intro he
      exact hgood.2.2 (by rw [he])

/-- C10, witness: two tracks, one `EVEN_ORIGINAL` range; the single pair
`(2,1)` joins the even original 2 with the odd sample 1. -/
theorem c10_build_pairs_wellformed_witness :
    (¬ (2 : Int) = 1 ∧
     ((1 : Int) ≤ 2 ∧ (2 : Int) ≤ ((sampleTracks 2).length : Int)) ∧
     ((1 : Int) ≤ 1 ∧ (1 : Int) ≤ ((sampleTracks 2).length : Int))) ∧
    ((⟨some ⟨"t2", "a2"⟩, some ⟨"t1", "a1"⟩, 2, 1⟩ : Pair) ∈
        (trioPhase (sampleTracks 2) []).1 ∨
      ¬ (2 : Int) % 2 = (1 : Int) % 2) :=
  c10_build_pairs_wellformed (sampleTracks 2) ⟨[], [⟨1, 2, "EVEN_ORIGINAL"⟩]⟩
    (by decide) [⟨some ⟨"t2", "a2"⟩, some ⟨"t1", "a1"⟩, 2, 1⟩] [] (by decide)
    ⟨some ⟨"t2", "a2"⟩, some ⟨"t1", "a1"⟩, 2, 1⟩ (by decide)

end SpotifyScraper

